import Mathlib

/-!
Verification of the aes-ts mode-of-operation engine.

Byte sequences are modelled as `List Nat` (each entry a byte value `< 256`);
16-byte blocks are lists of length 16.  The AES single-block primitive
(`aes.ts`) is not among the sources; per the specification it is an external
collaborator exposing `encryptBlock/decryptBlock` over 16-byte blocks, so the
modes below are parameterised by an arbitrary block function
`E : List Nat → List Nat`, and concrete permutations (`Erev`, `Einc`) are used
as stand-ins when a claim is evaluated on explicit inputs.

Each mode's definitions are translated from the TypeScript sources in
`src/modes` and the unnamed source parts; JavaScript-specific semantics
(32-bit shift operators, `subarray` index clamping, `Map` insertion order)
are modelled explicitly where they matter.
-/

namespace AesTs

/-- A block of `n` zero bytes, as produced by `new Uint8Array(n)`. -/
def zeros (n : Nat) : List Nat := List.replicate n 0

/-- The `xor` utility from `src/modes/utils/xor.ts`: the result has the
length of the first argument, each byte the XOR of the corresponding bytes. -/
def xorB (a b : List Nat) : List Nat :=
  (List.range a.length).map (fun i => Nat.xor (a.getD i 0) (b.getD i 0))

theorem xorB_length (a b : List Nat) : (xorB a b).length = a.length := by
  simp [xorB]

/-- Little-endian byte-list value: `leNat [b0, b1, ...] = b0 + 256*b1 + ...`. -/
def leNat : List Nat → Nat
  | [] => 0
  | b :: t => b + 256 * leNat t

/-- Little-endian encoding of a natural number into `n` bytes. -/
def natToLE : Nat → Nat → List Nat
  | 0, _ => []
  | n + 1, k => (k % 256) :: natToLE n (k / 256)

/-- Big-endian byte-list value, defined through the little-endian one. -/
def beNat (l : List Nat) : Nat := leNat l.reverse

/-- Big-endian encoding of a natural number into `n` bytes. -/
def natToBE (n k : Nat) : List Nat := (natToLE n k).reverse

theorem leNat_lt (l : List Nat) (h : ∀ b ∈ l, b < 256) :
    leNat l < 2 ^ (8 * l.length) := by
  induction l with
  | nil => simp [leNat]
  | cons b t ih =>
    have hb : b < 256 := h b (by simp)
    have ht := ih (fun x hx => h x (by simp [hx]))
    have : b + 256 * leNat t < 256 * 2 ^ (8 * t.length) := by
      have h1 : leNat t + 1 ≤ 2 ^ (8 * t.length) := ht
      calc b + 256 * leNat t < 256 + 256 * leNat t := by omega
        _ = 256 * (leNat t + 1) := by ring
        _ ≤ 256 * 2 ^ (8 * t.length) := by
            exact Nat.mul_le_mul_left 256 h1
    calc b + 256 * leNat t < 256 * 2 ^ (8 * t.length) := this
      _ = 2 ^ (8 * (t.length + 1)) := by ring
  -- the `leNat` of a byte list is bounded by the width of the list

theorem natToLE_leNat (l : List Nat) (h : ∀ b ∈ l, b < 256) :
    natToLE l.length (leNat l) = l := by
  induction l with
  | nil => simp [natToLE]
  | cons b t ih =>
    have hb : b < 256 := h b (by simp)
    have ht := ih (fun x hx => h x (by simp [hx]))
    simp only [List.length_cons, natToLE, leNat]
    have h1 : (b + 256 * leNat t) % 256 = b := by omega
    have h2 : (b + 256 * leNat t) / 256 = leNat t := by omega
    rw [h1, h2, ht]

/-- `Counter.increment()` from the CTR source (`part_004`, lines 53–62),
expressed on the little-endian reversal of the 16-byte state: walking from
the low-order byte, a `255` byte wraps to `0` and the walk continues,
otherwise the byte is incremented and the walk stops (`break`). -/
def incLE : List Nat → List Nat
  | [] => []
  | b :: t => if b = 255 then 0 :: incLE t else (b + 1) :: t

/-- `Counter.increment()` on the big-endian byte state: the source loops
`i = 15 .. 0` over `this._counter`, which is the reverse-order walk above. -/
def counterIncrement (l : List Nat) : List Nat := (incLE l.reverse).reverse

theorem incLE_correct (l : List Nat) (h : ∀ b ∈ l, b < 256) :
    incLE l = natToLE l.length ((leNat l + 1) % 2 ^ (8 * l.length)) := by
  induction l with
  | nil => simp [incLE, natToLE]
  | cons b t ih =>
    have hb : b < 256 := h b (by simp)
    have ht : ∀ x ∈ t, x < 256 := fun x hx => h x (by simp [hx])
    by_cases hb255 : b = 255
    · subst hb255
      have hrec := ih ht
      simp only [incLE, if_pos rfl, leNat, List.length_cons]
      have hmod : (255 + 256 * leNat t + 1) % 2 ^ (8 * (t.length + 1))
          = 256 * ((leNat t + 1) % 2 ^ (8 * t.length)) := by
        have : 255 + 256 * leNat t + 1 = 256 * (leNat t + 1) := by ring
        rw [this]
        have h2 : (2 : Nat) ^ (8 * (t.length + 1)) = 256 * 2 ^ (8 * t.length) := by
          ring
        rw [h2, Nat.mul_mod_mul_left]
      rw [hmod]
      simp only [natToLE, if_pos trivial]
      have h1 : 256 * ((leNat t + 1) % 2 ^ (8 * t.length)) % 256 = 0 := by omega
      have h2 : 256 * ((leNat t + 1) % 2 ^ (8 * t.length)) / 256
          = (leNat t + 1) % 2 ^ (8 * t.length) := by omega
      rw [h1, h2, hrec]
    · have hlt : b < 255 := by omega
      have hbound : b + 256 * leNat t + 1 < 2 ^ (8 * (t.length + 1)) := by
        have h1 : leNat t < 2 ^ (8 * t.length) := leNat_lt t ht
        have h2 : (2 : Nat) ^ (8 * (t.length + 1)) = 256 * 2 ^ (8 * t.length) := by
          ring
        rw [h2]
        calc b + 256 * leNat t + 1 ≤ 255 + 256 * leNat t := by omega
          _ < 256 * (leNat t + 1) := by omega
          _ ≤ 256 * 2 ^ (8 * t.length) := Nat.mul_le_mul_left 256 h1
      simp only [incLE, if_neg hb255, leNat, List.length_cons]
      rw [Nat.mod_eq_of_lt (by omega : b + 256 * leNat t + 1 < 2 ^ (8 * (t.length + 1)))]
      simp only [natToLE]
      have h1 : (b + 256 * leNat t + 1) % 256 = b + 1 := by omega
      have h2 : (b + 256 * leNat t + 1) / 256 = leNat t := by omega
      rw [h1, h2, natToLE_leNat t ht]

/-- Split a byte list into 16-byte chunks (the final chunk may be shorter).
The fuel argument makes the recursion structural so that the definition
reduces during kernel evaluation; `fuel = l.length` always suffices. -/
def chunksAux : Nat → List Nat → List (List Nat)
  | 0, _ => []
  | _, [] => []
  | f + 1, a :: rest => (a :: rest.take 15) :: chunksAux f (rest.drop 15)

/-- The 16-byte chunks of a byte list (the `data.subarray(i*16, i*16+16)`
walk every mode performs). -/
def chunks (l : List Nat) : List (List Nat) := chunksAux l.length l

/-- Modelled from the spec: the block-cipher primitive (`aes.ts` is not part
of the sources) is a fixed-key permutation of 16-byte blocks.  `Erev`
(byte-reversal) is one concrete such permutation, used when a claim is
evaluated on explicit inputs. -/
def Erev (b : List Nat) : List Nat := b.reverse

/-- Modelled from the spec: a second concrete 16-byte permutation
(`x ↦ x + 1 mod 256` on every byte), also standing in for the absent AES
primitive in concrete evaluations. -/
def Einc (b : List Nat) : List Nat := b.map (fun x => (x + 1) % 256)

/-- The `_double` helper shared verbatim by the CMAC, OCB, PMAC-SIV and XTS
sources: left-shift the 16-byte block by one bit, and XOR `0x87` into the
last byte when the dropped most-significant bit was set. -/
def double (block : List Nat) : List Nat :=
  let body := (List.range 15).map
    (fun i => (((block.getD i 0) <<< 1) ||| ((block.getD (i + 1) 0) >>> 7)) &&& 0xff)
  let last := ((block.getD 15 0) <<< 1) &&& 0xff
  let last := if (block.getD 0 0) &&& 0x80 ≠ 0 then last ^^^ 0x87 else last
  body ++ [last]

/-- The constant-time comparison loop shared by every mode:
`mismatch |= a[i] ^ b[i]` over the first `n` indices, OR-accumulated. -/
def orFoldDiff (n : Nat) (a b : List Nat) : Nat :=
  ((List.range n).map (fun i => Nat.xor (a.getD i 0) (b.getD i 0))).foldl Nat.lor 0

/-- `ModeOfOperationCBC_MAC._pad` (`part_002`): ISO-7816-4 style padding to
the next multiple of 16 — `0x80` at the message end, zero fill after. -/
def cbcmacPad (message : List Nat) : List Nat :=
  message ++ [0x80] ++ zeros (message.length - message.length % 16 + 16 - message.length - 1)

/-- `ModeOfOperationCBC_MAC.generateTag` (`part_002`): zero-IV CBC chain over
the (padded unless nonempty and 16-aligned) message, truncated to `tagSize`.
Returns `Except.error` where the source throws. -/
def cbcmacGenerateTag (E : List Nat → List Nat) (message : List Nat)
    (tagSize : Nat) : Except String (List Nat) :=
  if tagSize > 16 then .error "El tamaño de la etiqueta no puede ser mayor de 16 bytes." else
  let dataToProcess :=
    if message.length % 16 = 0 ∧ message.length > 0 then message else cbcmacPad message
  let lastCipherBlock :=
    (chunks dataToProcess).foldl (fun X blk => E (xorB X blk)) (zeros 16)
  .ok (lastCipherBlock.take tagSize)

/-- `ModeOfOperationCBC_MAC.verifyTag` (`part_002`): regenerate the tag at the
received tag's length and compare with the OR-accumulated loop. -/
def cbcmacVerifyTag (E : List Nat → List Nat) (message tag : List Nat) :
    Except String Bool := do
  let expectedTag ← cbcmacGenerateTag E message tag.length
  if tag.length ≠ expectedTag.length then return false
  return orFoldDiff tag.length tag expectedTag == 0

/-- CMAC subkey `K1 = double(E(0^16))` (`ModeOfOperationCMAC._generateSubkey`). -/
def cmacK1 (E : List Nat → List Nat) : List Nat := double (E (zeros 16))

/-- CMAC subkey `K2 = double(K1)` (`ModeOfOperationCMAC._generateSubkey`). -/
def cmacK2 (E : List Nat → List Nat) : List Nat := double (cmacK1 E)

/-- `ModeOfOperationCMAC.generateTag` (`src/modes/cmac.ts`, lines 102–141):
`n = ⌈(len+1)/16⌉` blocks, message zero-extended to `n·16` bytes; if the
length is zero or not a multiple of 16, a `0x80` marker is written after the
message and the final 16 bytes are XORed with `K2`, otherwise the final 16
bytes of the zero-extended buffer are XORed with `K1`; zero-IV CBC chain over
the first `n−1` blocks, then the prepared last block, truncated to
`tagSize`. -/
def cmacGenerateTag (E : List Nat → List Nat) (message : List Nat)
    (tagSize : Nat) : Except String (List Nat) :=
  if tagSize > 16 then .error "El tamaño de la etiqueta no puede ser mayor de 16 bytes." else
  let n := (message.length + 1 + 15) / 16
  let processedBase := message ++ zeros (n * 16 - message.length)
  let aligned := message.length % 16 = 0 ∧ message.length ≠ 0
  let processedMessage :=
    if aligned then processedBase
    else message ++ [0x80] ++ zeros (n * 16 - message.length - 1)
  let lastRaw := processedMessage.drop (processedMessage.length - 16)
  let lastBlock := if aligned then xorB lastRaw (cmacK1 E) else xorB lastRaw (cmacK2 E)
  let X := ((chunks processedMessage).take (n - 1)).foldl
    (fun X blk => E (xorB X blk)) (zeros 16)
  .ok ((E (xorB X lastBlock)).take tagSize)

/-- `ModeOfOperationCMAC.verifyTag` (`src/modes/cmac.ts`, lines 149–163). -/
def cmacVerifyTag (E : List Nat → List Nat) (message tag : List Nat) :
    Except String Bool := do
  let expectedTag ← cmacGenerateTag E message tag.length
  if tag.length ≠ expectedTag.length then return false
  return orFoldDiff tag.length tag expectedTag == 0

/-- Stated from the claim's words (C4), for comparison with
`cmacGenerateTag`: for a message that is a nonzero multiple of 16 bytes, the
zero-IV CBC-MAC chain over exactly the message's own 16-byte blocks, with the
final block XORed with `K1` before the last encryption. -/
def cmacTagClaimed (E : List Nat → List Nat) (message : List Nat)
    (tagSize : Nat) : List Nat :=
  let blocks := chunks message
  let X := (blocks.take (blocks.length - 1)).foldl
    (fun X blk => E (xorB X blk)) (zeros 16)
  ((E (xorB X (xorB (blocks.getLastD (zeros 16)) (cmacK1 E)))).take tagSize)

/-- C10: `Counter.increment()` replaces the 16-byte big-endian state with the
big-endian encoding of `(value + 1) mod 2^128`, where `value` is the
big-endian integer held before the call. -/
theorem C10_counter_increment (bs : List Nat) (hlen : bs.length = 16)
    (hbytes : ∀ b ∈ bs, b < 256) :
    counterIncrement bs = natToBE 16 ((beNat bs + 1) % 2 ^ 128) := by
  have hrl : bs.reverse.length = 16 := by simp [hlen]
  have hrb : ∀ b ∈ bs.reverse, b < 256 := fun b hb => hbytes b (List.mem_reverse.mp hb)
  have h := incLE_correct bs.reverse hrb
  rw [hrl] at h
  unfold counterIncrement natToBE beNat
  rw [h]

/-- C10 witness: incrementing the all-`0xFF` counter wraps to the all-zero
counter. -/
theorem C10_counter_increment_witness :
    (List.replicate 16 255 : List Nat).length = 16 ∧
      counterIncrement (List.replicate 16 255) = natToBE 16 ((beNat (List.replicate 16 255) + 1) % 2 ^ 128) ∧
      counterIncrement (List.replicate 16 255) = zeros 16 := by
  refine ⟨by decide, C10_counter_increment (List.replicate 16 255) (by decide) (by decide), ?_⟩
  decide

/-- C6: for every block cipher and every message, CMAC `verifyTag` and
CBC-MAC `verifyTag` called with a zero-length tag return `true`: the
comparison length is taken from the supplied tag, so the empty tag verifies
against any message. -/
theorem C6_empty_tag_verifies (E : List Nat → List Nat) (message : List Nat) :
    cmacVerifyTag E message [] = .ok true ∧ cbcmacVerifyTag E message [] = .ok true := by
  constructor
  · simp only [cmacVerifyTag, cmacGenerateTag, orFoldDiff]
    rfl
  · simp only [cbcmacVerifyTag, cbcmacGenerateTag, orFoldDiff]
    rfl

/-- C4 (code bug): on the 16-byte all-zero message under the stand-in
cipher `Einc`, `cmacGenerateTag` processes an extra all-zero block beyond the
message's own single block (its block count is `⌈(16+1)/16⌉ = 2`), producing
`E(E(M₁) ⊕ K1)` where the claim's chain over exactly the message's blocks
gives `E(M₁ ⊕ K1)`: the two tags differ. -/
theorem C4_cmac_extra_block :
    cmacGenerateTag Einc (zeros 16) 16 = .ok (List.replicate 16 4) ∧
      cmacTagClaimed Einc (zeros 16) 16 = List.replicate 16 3 ∧
      (List.replicate 16 4 : List Nat) ≠ List.replicate 16 3 := by
  exact ⟨rfl, by decide, by decide⟩

/-- JavaScript `ToInt32`: reduce modulo `2^32` and reinterpret as a signed
32-bit value. Both operands of `>>` and `&` undergo this conversion. -/
def toInt32 (n : Nat) : Int :=
  let r : Nat := n % 2 ^ 32
  if r < 2 ^ 31 then (r : Int) else (r : Int) - 2 ^ 32

/-- JavaScript `(x >> s) & 0xff` for a nonnegative `x`: `ToInt32(x)`,
arithmetic shift right by `s mod 32` (floor division), low byte. -/
def jsShrAnd255 (x s : Nat) : Nat :=
  (((toInt32 x).fdiv (2 ^ (s % 32))).emod 256).toNat

/-- The length block assembled at the end of `ModeOfOperationGCM.ghash`
(`part_006`, lines 205–217): the loops write
`finalBlock[7-i] = (lenA >> (i*8)) & 0xff` and
`finalBlock[15-i] = (lenC >> (i*8)) & 0xff` for `i = 0..7`, so the byte at
index `j` of each half is `(len >> ((7-j)*8)) & 0xff` with JavaScript 32-bit
shift semantics. -/
def ghashFinalBlock (lenA lenC : Nat) : List Nat :=
  ((List.range 8).map (fun j => jsShrAnd255 lenA ((7 - j) * 8)))
    ++ ((List.range 8).map (fun j => jsShrAnd255 lenC ((7 - j) * 8)))

/-- Stated from the claim's words (C3), for comparison with
`ghashFinalBlock`: the bit lengths of the associated data and of the
ciphertext, each as a true 64-bit big-endian integer. -/
def ghashLenBlockClaimed (lenA lenC : Nat) : List Nat :=
  natToBE 8 lenA ++ natToBE 8 lenC

/-- XOR a (possibly short) block into the first `blk.length` bytes of the
16-byte accumulator `Y` (`for j < block.length: Y[j] ^= block[j]`). -/
def xorInto (Y blk : List Nat) : List Nat :=
  (List.range 16).map
    (fun j => if j < blk.length then Nat.xor (Y.getD j 0) (blk.getD j 0) else Y.getD j 0)

/-- One right shift of the GHASH multiplication register
(`ModeOfOperationGCM.galoisMultiply`, `part_006`, lines 165–175): shift `v`
right one bit and XOR the reduction constant `0xe1` into `v[0]` when the
dropped least-significant bit was set. -/
def gmShift (v : List Nat) : List Nat :=
  let shifted := (List.range 16).map
    (fun j => if j = 0 then (v.getD 0 0) >>> 1
      else ((v.getD j 0) >>> 1) ||| (((v.getD (j - 1) 0) &&& 1) <<< 7))
  if (v.getD 15 0) &&& 1 ≠ 0 then
    (Nat.xor (shifted.getD 0 0) 0xe1) :: shifted.drop 1
  else shifted

/-- `ModeOfOperationGCM.galoisMultiply` (`part_006`, lines 152–178): GHASH
multiplication in GF(2^128), bit-by-bit over the 128 MSB-first bits of `x`. -/
def galoisMultiply (x y : List Nat) : List Nat :=
  ((List.range 128).foldl
    (fun (zv : List Nat × List Nat) i =>
      let z := if ((x.getD (i / 8) 0) >>> (7 - i % 8)) &&& 1 = 1 then xorB zv.1 zv.2 else zv.1
      (z, gmShift zv.2))
    (zeros 16, y)).1

/-- `ModeOfOperationGCM.ghash` (`part_006`, lines 184–224): absorb the AAD
blocks, then the ciphertext blocks, then the length block, multiplying by
`H = E(0^16)` after each absorption. -/
def ghash (E : List Nat → List Nat) (associatedData ciphertext : List Nat) : List Nat :=
  let H := E (zeros 16)
  let Y1 := (chunks associatedData).foldl (fun Y blk => galoisMultiply (xorInto Y blk) H) (zeros 16)
  let Y2 := (chunks ciphertext).foldl (fun Y blk => galoisMultiply (xorInto Y blk) H) Y1
  galoisMultiply (xorInto Y2 (ghashFinalBlock (associatedData.length * 8) (ciphertext.length * 8))) H

/-- C3 (code bug): for an associated data of 2 bytes (`lenA = 16` bits) and
an empty ciphertext, the GHASH length block is
`[0,0,0,16, 0,0,0,16, 0,...,0]` — JavaScript's 32-bit `>>` makes bytes 0–3
duplicate the low 32 bits of the length instead of holding its high 32 bits,
so byte 3 is `0x10` where the claimed 64-bit big-endian encoding requires
`0`. -/
theorem C3_ghash_length_block_diverges :
    ghashFinalBlock 16 0
        = [0, 0, 0, 16, 0, 0, 0, 16, 0, 0, 0, 0, 0, 0, 0, 0] ∧
      ghashLenBlockClaimed 16 0
        = [0, 0, 0, 0, 0, 0, 0, 16, 0, 0, 0, 0, 0, 0, 0, 0] ∧
      ghashFinalBlock 16 0 ≠ ghashLenBlockClaimed 16 0 := by
  exact ⟨by decide, by decide, by decide⟩

/-- Number of trailing zero bits, with fuel to keep the recursion
structural; `fuel = n` suffices for every `n ≥ 1`. -/
def ntzGo : Nat → Nat → Nat
  | 0, _ => 0
  | f + 1, n => if n &&& 1 = 0 then 1 + ntzGo f (n >>> 1) else 0

/-- `_ntz` from the OCB and PMAC-SIV sources: trailing zero bits of `n`,
with `ntz 0 = 128` as sentinel. -/
def ntz (n : Nat) : Nat := if n = 0 then 128 else ntzGo n n

/-- The precomputed `L_series` of the OCB and PMAC-SIV constructors:
`L_series[0] = L_* = E(0^16)` and `L_series[k+1] = double(L_series[k])`. -/
def LSeries (E : List Nat → List Nat) : Nat → List Nat
  | 0 => E (zeros 16)
  | k + 1 => double (LSeries E k)

/-- `ModeOfOperationOCB._ocb_process`, AAD loop (`part_005`, line 134): per
AAD block the source executes
`authOffset = this._double(authOffset === this.L_star ? this._double(this.L_star) : authOffset)`.
`===` is JavaScript reference equality, and `authOffset` is a fresh
`Uint8Array(16)` (or the fresh result of `_double`), never the `L_star`
object itself, so the condition is always false and the update is simply
`authOffset = double(authOffset)` starting from the zero block.  This is the
offset XORed into the `i`-th AAD block before encryption (`i` 1-based). -/
def authOffsetSeq : Nat → List Nat
  | 0 => zeros 16
  | i + 1 => double (authOffsetSeq i)

/-- Stated from the claim's words (C5), for comparison with
`authOffsetSeq`: the XOR of `L_series[ntz(j)]` for `j = 1 .. i`. -/
def ntzOffsetClaimed (E : List Nat → List Nat) (i : Nat) : List Nat :=
  (List.range' 1 i).foldl (fun off j => xorB off (LSeries E (ntz j))) (zeros 16)

theorem double_zeros : double (zeros 16) = zeros 16 := by decide

/-- C5 (code bug): the offset the OCB AAD path XORs into every AAD block is
the zero block for every block index (the reference-equality guard never
fires, so the offset is only ever doubled from zero), whereas the claimed
`ntz` accumulation gives `L_series[ntz(1)] = E(0^16)` for the first block —
`[1,...,1]` under the stand-in cipher `Einc` — so the two disagree already
at `i = 1`. -/
theorem C5_ocb_aad_offset_diverges :
    (∀ i, authOffsetSeq i = zeros 16) ∧
      ntzOffsetClaimed Einc 1 = List.replicate 16 1 ∧
      authOffsetSeq 1 ≠ ntzOffsetClaimed Einc 1 := by
  have hz : ∀ i, authOffsetSeq i = zeros 16 := by
    intro i
    induction i with
    | zero => rfl
    | succ k ih => simp only [authOffsetSeq, ih, double_zeros]
  refine ⟨hz, by decide, ?_⟩
  rw [hz 1]
  decide

theorem chunksAux_flatten :
    ∀ (f : Nat) (l : List Nat), l.length ≤ f → (chunksAux f l).flatten = l := by
  intro f
  induction f with
  | zero =>
    intro l hl
    have : l = [] := List.eq_nil_of_length_eq_zero (Nat.le_zero.mp hl)
    subst this; rfl
  | succ f ih =>
    intro l hl
    match l with
    | [] => rfl
    | a :: rest =>
      have hr : (rest.drop 15).length ≤ f := by
        simp only [List.length_drop]
        have : rest.length ≤ f := by simpa using Nat.le_of_succ_le_succ hl
        omega
      simp only [chunksAux, List.flatten_cons, ih _ hr]
      simp [List.take_append_drop]

theorem chunks_flatten (l : List Nat) : (chunks l).flatten = l :=
  chunksAux_flatten l.length l (Nat.le_refl _)

theorem chunksAux_block_length :
    ∀ (f : Nat) (l : List Nat), l.length ≤ f → 16 ∣ l.length →
      ∀ b ∈ chunksAux f l, b.length = 16 := by
  intro f
  induction f with
  | zero =>
    intro l hl _ b hb
    have : l = [] := List.eq_nil_of_length_eq_zero (Nat.le_zero.mp hl)
    subst this; simp [chunksAux] at hb
  | succ f ih =>
    intro l hl hdvd b hb
    match l with
    | [] => simp [chunksAux] at hb
    | a :: rest =>
      have h15 : 15 ≤ rest.length := by
        rcases hdvd with ⟨k, hk⟩
        simp only [List.length_cons] at hk
        rcases k with _ | k
        · omega
        · have := hk; omega
      simp only [chunksAux, List.mem_cons] at hb
      rcases hb with hb | hb
      · subst hb
        simp only [List.length_cons, List.length_take]
        omega
      · refine ih (rest.drop 15) ?_ ?_ b hb
        · simp only [List.length_drop]
          have : rest.length ≤ f := by simpa using Nat.le_of_succ_le_succ hl
          omega
        · rcases hdvd with ⟨k, hk⟩
          simp only [List.length_cons] at hk
          refine ⟨k - 1, ?_⟩
          simp only [List.length_drop]
          rcases k with _ | k
          · omega
          · simp only [Nat.succ_sub_one]; omega

theorem chunks_block_length (l : List Nat) (h : 16 ∣ l.length) :
    ∀ b ∈ chunks l, b.length = 16 :=
  chunksAux_block_length l.length l (Nat.le_refl _) h

theorem xorB_eq_zipWith (a : List Nat) :
    ∀ b : List Nat, a.length ≤ b.length → xorB a b = List.zipWith Nat.xor a b := by
  induction a with
  | nil => intro b _; simp [xorB]
  | cons x xs ih =>
    intro b hb
    match b with
    | [] => simp at hb
    | y :: ys =>
      have hys : xs.length ≤ ys.length := by simpa using Nat.le_of_succ_le_succ hb
      simp only [xorB, List.length_cons, List.range_succ_eq_map, List.map_cons,
        List.getD_cons_zero, List.map_map, List.zipWith_cons_cons]
      refine congrArg₂ (· :: ·) rfl ?_
      rw [← ih ys hys]
      simp [xorB, Function.comp_def]

/-- `ModeOfOperationCTR.encrypt` for a fresh instance (`part_004`,
lines 134–145): per 16-byte chunk, the keystream block is `E` of the current
counter bytes, the counter is incremented, and the chunk is XORed with the
keystream.  The recursion is over the chunk list. -/
def ctrProcess (E : List Nat → List Nat) : List Nat → List (List Nat) → List Nat
  | _, [] => []
  | ctr, c :: cs => xorB c (E ctr) ++ ctrProcess E (counterIncrement ctr) cs

/-- CTR encryption (= decryption) of a byte sequence from a fresh
`ModeOfOperationCTR` seeded with the 16-byte counter value `counter`. -/
def ctrEncrypt (E : List Nat → List Nat) (counter data : List Nat) : List Nat :=
  ctrProcess E counter (chunks data)

/-- The caller's input buffer after `ModeOfOperationCTR.encrypt`: the source
copies the input first (`const encrypted = new Uint8Array(plaintext)`,
`part_004` line 135) and XORs into the copy, so the caller's array is left
holding its original contents. -/
def ctrEncryptBufferAfter (E : List Nat → List Nat) (counter data : List Nat) : List Nat :=
  data

/-- `ModeOfOperationCBC.encrypt` block loop (`part_006`, lines 294–302),
threading the in-place mutation of the caller's plaintext: each iteration
takes `block = plaintext.subarray(i, i+16)` — a view into the caller's
buffer — executes `block[j] ^= lastCipherblock[j]` (writing the caller's
buffer), encrypts the mutated block, and chains.  Returns
`(ciphertext, final lastCipherblock, caller's plaintext buffer after)`. -/
def cbcEncryptGo (E : List Nat → List Nat) :
    List Nat → List (List Nat) → List Nat × List Nat × List Nat
  | lcb, [] => ([], lcb, [])
  | lcb, blk :: rest =>
    let b := xorB blk lcb
    let c := E b
    let r := cbcEncryptGo E c rest
    (c ++ r.1, r.2.1, b ++ r.2.2)

/-- `ModeOfOperationCBC.encrypt` (`part_006`, lines 289–304). -/
def cbcEncrypt (E : List Nat → List Nat) (lastCipherblock plaintext : List Nat) :
    Except String (List Nat × List Nat × List Nat) :=
  if plaintext.length % 16 ≠ 0 then
    .error "Tamaño de texto plano inválido (debe ser múltiplo de 16 bytes)"
  else .ok (cbcEncryptGo E lastCipherblock (chunks plaintext))

theorem cbcEncryptGo_ct_length (E : List Nat → List Nat)
    (hE : ∀ b, b.length = 16 → (E b).length = 16) :
    ∀ (bs : List (List Nat)) (lcb : List Nat), (∀ b ∈ bs, b.length = 16) →
      lcb.length = 16 → (cbcEncryptGo E lcb bs).1.length = 16 * bs.length := by
  intro bs
  induction bs with
  | nil => intro lcb _ _; simp [cbcEncryptGo]
  | cons blk rest ih =>
    intro lcb hlen hlcb
    have hblk : blk.length = 16 := hlen blk (by simp)
    have hc : (E (xorB blk lcb)).length = 16 := hE _ (by rw [xorB_length, hblk])
    simp only [cbcEncryptGo, List.length_append, List.length_cons, hc,
      ih (E (xorB blk lcb)) (fun b hb => hlen b (by simp [hb])) hc]
    ring

theorem flatten_length_of_blocks :
    ∀ bs : List (List Nat), (∀ b ∈ bs, b.length = 16) →
      bs.flatten.length = 16 * bs.length := by
  intro bs
  induction bs with
  | nil => intro _; simp
  | cons b t ih =>
    intro h
    simp only [List.flatten_cons, List.length_append, h b (by simp),
      ih (fun x hx => h x (by simp [hx])), List.length_cons]
    ring

theorem cbcEncryptGo_buffer (E : List Nat → List Nat)
    (hE : ∀ b, b.length = 16 → (E b).length = 16) :
    ∀ (bs : List (List Nat)) (lcb : List Nat), (∀ b ∈ bs, b.length = 16) →
      lcb.length = 16 →
      (cbcEncryptGo E lcb bs).2.2 = xorB bs.flatten (lcb ++ (cbcEncryptGo E lcb bs).1) := by
  intro bs
  induction bs with
  | nil => intro lcb _ _; simp [cbcEncryptGo, xorB]
  | cons blk rest ih =>
    intro lcb hlen hlcb
    have hblk : blk.length = 16 := hlen blk (by simp)
    have hrest : ∀ b ∈ rest, b.length = 16 := fun b hb => hlen b (by simp [hb])
    have hc : (E (xorB blk lcb)).length = 16 := hE _ (by rw [xorB_length, hblk])
    have hrl : (cbcEncryptGo E (E (xorB blk lcb)) rest).1.length = 16 * rest.length :=
      cbcEncryptGo_ct_length E hE rest _ hrest hc
    have hfl : rest.flatten.length = 16 * rest.length := flatten_length_of_blocks rest hrest
    have hgoal : xorB (blk ++ rest.flatten)
          (lcb ++ (E (xorB blk lcb) ++ (cbcEncryptGo E (E (xorB blk lcb)) rest).1))
        = xorB blk lcb
          ++ xorB rest.flatten
              (E (xorB blk lcb) ++ (cbcEncryptGo E (E (xorB blk lcb)) rest).1) := by
      rw [xorB_eq_zipWith (blk ++ rest.flatten) _ (by
          simp only [List.length_append, hc, hrl, hfl, hblk, hlcb]
          omega),
        xorB_eq_zipWith rest.flatten _ (by
          simp only [List.length_append, hc, hrl]
          omega),
        xorB_eq_zipWith blk lcb (by rw [hblk, hlcb])]
      exact List.zipWith_append _ blk rest.flatten lcb _ (by rw [hblk, hlcb])
    simp only [cbcEncryptGo, List.flatten_cons]
    rw [ih (E (xorB blk lcb)) hrest hc, hgoal]

/-- C9 counterexample: encrypting one all-zero block under CBC with the
chaining value `[1,...,1]` and the stand-in cipher `Einc` leaves the
caller's plaintext buffer holding `[1,...,1]` — the in-place
`block[j] ^= lastCipherblock[j]` wrote the XOR of the block with the
chaining value into the caller's array, so the buffer is not left with its
original contents. -/
theorem C9_cbc_mutates_input :
    cbcEncrypt Einc (List.replicate 16 1) (zeros 16)
        = .ok (List.replicate 16 2, List.replicate 16 2, List.replicate 16 1) ∧
      (List.replicate 16 1 : List Nat) ≠ zeros 16 := ⟨rfl, by decide⟩

/-- `ModeOfOperationECB` (`part_008`): `encrypt` (lines 54–66) allocates
`const ciphertext = new Uint8Array(plaintext.length)` (line 59), `decrypt`
(lines 74–86) allocates its output the same way (line 79), and the caller's
array is only read — through `subarray` views and the block cipher, which
never writes its input and returns a fresh result (`part_009`).  The
translation of that write-target analysis is the identity on the caller's
buffer. -/
def ecbBuffersAfter (data : List Nat) : List Nat := data

/-- `ModeOfOperationCBC.decrypt` (`part_006`, lines 312–328): the XOR at
line 322 writes `decryptedBlock`, the fresh result of `aes.decrypt`, and the
output is the fresh `plaintext` of line 317; `lastCipherblock = block`
(line 324) stores a view of the caller's ciphertext but nothing ever writes
through it, so the ciphertext buffer is left unchanged. -/
def cbcDecryptBufferAfter (ciphertext : List Nat) : List Nat := ciphertext

/-- `ModeOfOperationCFB` (`part_007`): both operations copy their input
(`new Uint8Array(plaintext)` line 72, `new Uint8Array(ciphertext)`
line 103) and XOR into the copy; the shift register is a constructor-time
copy of the IV (line 59), so the caller's IV and data buffers are left
unchanged. -/
def cfbBuffersAfter (iv data : List Nat) : List Nat × List Nat := (iv, data)

/-- `ModeOfOperationOFB` (`modes/ofb.ts`): `encrypt` copies its input
(`new Uint8Array(plaintext)`, line 67) and XORs into the copy;
`lastPrecipher` initially aliases the caller's IV (line 59) but is only
read and then reassigned to fresh `aes.encrypt` results, never written
through, so the caller's IV and data buffers are left unchanged. -/
def ofbBuffersAfter (iv data : List Nat) : List Nat × List Nat := (iv, data)

/-- `ModeOfOperationGCM` (`part_006`): `J0` is a fresh constructor block
(lines 76–78), `ghash` and `galoisMultiply` write only the fresh `Y`, `z`,
`v` (a copy of `y`, line 155) and `finalBlock`; the tag blocks are fresh
(lines 101, 124) and the data passes through the copying CTR — the caller's
IV, data, tag and AAD buffers are left unchanged. -/
def gcmBuffersAfter (iv data tag aad : List Nat) :
    List Nat × List Nat × List Nat × List Nat := (iv, data, tag, aad)

/-- `ModeOfOperationCCM` (`modes/ccm.ts`): `_ctrProcess` copies its data
(`new Uint8Array(data)`, line 231) and XORs into the copy; `_cbcMac`,
`formatAAD`, `_computeS0` and `_xorMac` write only the fresh `B0`, `block`,
`lenBlock`, `result`, `A0` and `tag` buffers, reading the nonce and AAD via
`set`/`subarray` — all caller buffers are left unchanged. -/
def ccmBuffersAfter (data iv tag aad : List Nat) :
    List Nat × List Nat × List Nat × List Nat := (data, iv, tag, aad)

/-- `ModeOfOperationEAX` (`modes/eax.ts`): `_omac` copies its data into the
fresh domain-prefixed `message` buffer (lines 102–104) and pads into the
fresh `paddedFinalBlock`; the data passes through the copying CTR and `xor`
allocates its result — all caller buffers are left unchanged. -/
def eaxBuffersAfter (data tag nonce aad : List Nat) :
    List Nat × List Nat × List Nat × List Nat := (data, tag, nonce, aad)

/-- `ModeOfOperationOCB._ocb_process` (`part_005`): writes target the fresh
`tmp` (line 117), `stretch` (line 123), `output` (line 141) and `padded`
(line 187) buffers; the data, nonce and AAD are read via `set`/`subarray`
and `xor` allocates — all caller buffers are left unchanged. -/
def ocbBuffersAfter (data tag nonce aad : List Nat) :
    List Nat × List Nat × List Nat × List Nat := (data, tag, nonce, aad)

/-- `ModeOfOperationCWC` (`modes/cwc.ts`): the data passes through the
copying CTR seeded from the fresh `initialCounter` (lines 172–174, 249–251);
`polyvalMultiply` writes the fresh `z` and a copy `v` of its second argument
(line 63); `padToBlockSize` returns its (read-only) argument when aligned
and a fresh buffer otherwise — all caller buffers are left unchanged. -/
def cwcBuffersAfter (data tag nonce aad : List Nat) :
    List Nat × List Nat × List Nat × List Nat := (data, tag, nonce, aad)

/-- `ModeOfOperationGCM_SIV` (`modes/gcm-siv.ts`): `deriveKeys`, `polyval`
and the tag assembly write only the fresh `block`, `keyMaterial`, `z`, `v`
(a copy, line 93), `s`, `padded`, `lenBlock` and `tagMaterial` buffers; the
CTR seed is a copy of the tag (`new Uint8Array(tag)`, lines 194, 224) — all
caller buffers are left unchanged. -/
def gcmSivBuffersAfter (data tag nonce aad : List Nat) :
    List Nat × List Nat × List Nat × List Nat := (data, tag, nonce, aad)

/-- `ModeOfOperationPMAC_SIV` (`part_003`): `_pmac` pads into the fresh
`padded` (line 96), `decrypt` zero-pads the tag into the fresh
`full_iv_tag` (line 169), the data passes through the copying CTR, and
`xor` allocates — all caller buffers are left unchanged. -/
def pmacSivBuffersAfter (data tag nonce aad : List Nat) :
    List Nat × List Nat × List Nat × List Nat := (data, tag, nonce, aad)

/-- `ModeOfOperationXTS` (`modes/xts.ts`): all `set` writes target the
fresh outputs (`ciphertext` line 72, `plaintext` line 134) and the fresh
stealing scratch blocks `blockForPenultimateC` (line 119) and
`preCiphertext` (line 178); the caller's data and tweak are only read via
`subarray` and the allocating `xor` — both buffers are left unchanged. -/
def xtsBuffersAfter (data tweak : List Nat) : List Nat × List Nat := (data, tweak)

/-- `ModeOfOperationKWP` (`modes/kwp.ts`): `wrap` copies the caller's key
into the fresh length-prefixed `paddedPlaintext` (lines 69–79); `unwrap`
hands the wrapped data to `ModeOfOperationKW.unwrap` from `kw.ts`, which is
not among the sources — modelled from the spec, which declares every
operation a pure function of its inputs, the missing KW leaves its argument
unchanged — so both caller buffers are left unchanged. -/
def kwpBuffersAfter (data : List Nat) : List Nat := data

/-- `ModeOfOperationTKW` (`modes/tkw.ts`): `wrap` builds the fresh
`paddedTweak`, `paddedPlaintext` and `dataToWrap` buffers (lines 60–76);
`unwrap` reads the recovered data via `subarray` views and compares against
a fresh padded copy of the tweak (lines 101–105), delegating to the absent
`kw.ts` under the same spec-modelled purity as KWP — the caller's data and
tweak buffers are left unchanged. -/
def tkwBuffersAfter (data tweak : List Nat) : List Nat × List Nat := (data, tweak)

/-- `ModeOfOperationHybridCTR` (`modes/tkw.ts`, lines 168 ff.): the
synthetic-nonce and tag helpers copy everything into the fresh `combined`,
`paddedBlock` and `lenBytes` buffers (lines 202–205, 212, 232–243), the
data passes through the copying CTR, and `xor` allocates — all caller
buffers are left unchanged. -/
def hybridBuffersAfter (data tag nonce aad tweak : List Nat) :
    List Nat × List Nat × List Nat × List Nat × List Nat := (data, tag, nonce, aad, tweak)

/-- `ModeOfOperationCBC_MAC` (`part_002`): `_pad` copies the message into
the fresh `padded` buffer (line 59), the chain reads the message via
`subarray` and the allocating `xor`, and `verifyTag` only reads the tag —
both caller buffers are left unchanged. -/
def cbcmacBuffersAfter (message tag : List Nat) : List Nat × List Nat := (message, tag)

/-- `ModeOfOperationCMAC` (`modes/cmac.ts`): `generateTag` copies the
message into the fresh `processedMessage` (line 110), chains via the
allocating `xor`, and `verifyTag` only reads the tag — both caller buffers
are left unchanged. -/
def cmacBuffersAfter (message tag : List Nat) : List Nat × List Nat := (message, tag)

/-- `ModeOfOperationFPE_FF1` (`modes/fpe-ff1.ts`): the texts are immutable
strings and the tweak is only read (`Q.set(tweak)`, line 193); every write
targets the fresh `numerals`, `bytes`, `currentBlock`, `P`, `Q`, `S` and
`tempBlock` buffers — the caller's tweak buffer is left unchanged. -/
def ff1TweakAfter (tweak : List Nat) : List Nat := tweak

/-- C9 (amended): every mode's operations leave the byte arrays passed as
arguments (plaintext/ciphertext, nonce/IV, associated data, tag, tweak,
message) with their original contents after the call — with the single
exception of CBC `encrypt`, which mutates the caller's plaintext buffer in
place: after the call it holds the byte-wise XOR of the plaintext with the
chaining stream `lastCipherblock ++ ciphertext` (each 16-byte block XORed
with the previous ciphertext block, the chaining value for the first
block). -/
theorem C9_buffer_frame (E : List Nat → List Nat)
    (ctr data lcb p iv tag nonce aad tweak msg : List Nat)
    (hE : ∀ b, b.length = 16 → (E b).length = 16)
    (hlcb : lcb.length = 16) (hlen : p.length % 16 = 0) :
    ctrEncryptBufferAfter E ctr data = data
      ∧ ecbBuffersAfter data = data
      ∧ cbcDecryptBufferAfter data = data
      ∧ cfbBuffersAfter iv data = (iv, data)
      ∧ ofbBuffersAfter iv data = (iv, data)
      ∧ gcmBuffersAfter iv data tag aad = (iv, data, tag, aad)
      ∧ ccmBuffersAfter data iv tag aad = (data, iv, tag, aad)
      ∧ eaxBuffersAfter data tag nonce aad = (data, tag, nonce, aad)
      ∧ ocbBuffersAfter data tag nonce aad = (data, tag, nonce, aad)
      ∧ cwcBuffersAfter data tag nonce aad = (data, tag, nonce, aad)
      ∧ gcmSivBuffersAfter data tag nonce aad = (data, tag, nonce, aad)
      ∧ pmacSivBuffersAfter data tag nonce aad = (data, tag, nonce, aad)
      ∧ xtsBuffersAfter data tweak = (data, tweak)
      ∧ kwpBuffersAfter data = data
      ∧ tkwBuffersAfter data tweak = (data, tweak)
      ∧ hybridBuffersAfter data tag nonce aad tweak = (data, tag, nonce, aad, tweak)
      ∧ cbcmacBuffersAfter msg tag = (msg, tag)
      ∧ cmacBuffersAfter msg tag = (msg, tag)
      ∧ ff1TweakAfter tweak = tweak
      ∧ ∃ ct lcb2, cbcEncrypt E lcb p = .ok (ct, lcb2, xorB p (lcb ++ ct)) := by
  refine ⟨rfl, rfl, rfl, rfl, rfl, rfl, rfl, rfl, rfl, rfl, rfl, rfl, rfl, rfl, rfl, rfl,
    rfl, rfl, rfl,
    (cbcEncryptGo E lcb (chunks p)).1, (cbcEncryptGo E lcb (chunks p)).2.1, ?_⟩
  have hdvd : 16 ∣ p.length := Nat.dvd_of_mod_eq_zero hlen
  have hb := cbcEncryptGo_buffer E hE (chunks p) lcb (chunks_block_length p hdvd) hlcb
  rw [chunks_flatten p] at hb
  unfold cbcEncrypt
  rw [if_neg (by simp [hlen])]
  exact congrArg Except.ok (by rw [← hb])

/-- C9 witness: the frame statement at concrete inputs — `Einc`, chaining
value `[1,...,1]`, one all-zero CBC block, and concrete
data/iv/tag/nonce/aad/tweak/message buffers for the unchanged modes. -/
theorem C9_buffer_frame_witness :
    ctrEncryptBufferAfter Einc (zeros 16) [5] = [5]
      ∧ ecbBuffersAfter [5] = [5]
      ∧ cbcDecryptBufferAfter [5] = [5]
      ∧ cfbBuffersAfter (zeros 12) [5] = (zeros 12, [5])
      ∧ ofbBuffersAfter (zeros 12) [5] = (zeros 12, [5])
      ∧ gcmBuffersAfter (zeros 12) [5] (zeros 16) [7] = (zeros 12, [5], zeros 16, [7])
      ∧ ccmBuffersAfter [5] (zeros 12) (zeros 16) [7] = ([5], zeros 12, zeros 16, [7])
      ∧ eaxBuffersAfter [5] (zeros 16) [9] [7] = ([5], zeros 16, [9], [7])
      ∧ ocbBuffersAfter [5] (zeros 16) [9] [7] = ([5], zeros 16, [9], [7])
      ∧ cwcBuffersAfter [5] (zeros 16) [9] [7] = ([5], zeros 16, [9], [7])
      ∧ gcmSivBuffersAfter [5] (zeros 16) [9] [7] = ([5], zeros 16, [9], [7])
      ∧ pmacSivBuffersAfter [5] (zeros 16) [9] [7] = ([5], zeros 16, [9], [7])
      ∧ xtsBuffersAfter [5] (zeros 16) = ([5], zeros 16)
      ∧ kwpBuffersAfter [5] = [5]
      ∧ tkwBuffersAfter [5] (zeros 16) = ([5], zeros 16)
      ∧ hybridBuffersAfter [5] (zeros 16) [9] [7] (zeros 16)
          = ([5], zeros 16, [9], [7], zeros 16)
      ∧ cbcmacBuffersAfter [1, 2, 3] (zeros 16) = ([1, 2, 3], zeros 16)
      ∧ cmacBuffersAfter [1, 2, 3] (zeros 16) = ([1, 2, 3], zeros 16)
      ∧ ff1TweakAfter (zeros 16) = zeros 16
      ∧ ∃ ct lcb2, cbcEncrypt Einc (List.replicate 16 1) (zeros 16)
          = .ok (ct, lcb2, xorB (zeros 16) (List.replicate 16 1 ++ ct)) :=
  C9_buffer_frame Einc (zeros 16) [5] (List.replicate 16 1) (zeros 16) (zeros 12)
    (zeros 16) [9] [7] (zeros 16) [1, 2, 3]
    (fun b hb => by simp [Einc, hb]) (by decide) (by decide)

/-- JavaScript `TypedArray.subarray` index resolution: a negative index is
taken relative to the end, and both indices are clamped to `[0, length]`. -/
def jsIndex (len : Nat) (i : Int) : Nat :=
  if i < 0 then (max ((len : Int) + i) 0).toNat else min i.toNat len

/-- JavaScript `l.subarray(s, e)` (empty when the resolved start is at or
past the resolved end). -/
def jsSubarray (l : List Nat) (s e : Int) : List Nat :=
  (l.take (jsIndex l.length e)).drop (jsIndex l.length s)

/-- Modelled from the spec: the block-cipher primitive (the absent `aes.ts`
collaborator) encrypts 16-byte blocks and fails on input of any other
length. -/
def aesApply (E : List Nat → List Nat) (b : List Nat) : Except String (List Nat) :=
  if b.length = 16 then .ok (E b) else .error "invalid block size (must be 16 bytes)"

/-- The main block loop of `ModeOfOperationXTS.encrypt` (`src/modes/xts.ts`,
lines 80–86): for each full block below the iteration limit, encrypt
`block ⊕ currentTweak`, XOR the tweak back in, and double the tweak.
Returns the ciphertext of those blocks and the final tweak. -/
def xtsLoop (E1 : List Nat → List Nat) :
    List (List Nat) → List Nat → Except String (List Nat × List Nat)
  | [], tw => .ok ([], tw)
  | blk :: rest, tw => do
    let eb ← aesApply E1 (xorB blk tw)
    let r ← xtsLoop E1 rest (double tw)
    .ok (xorB eb tw ++ r.1, r.2)

/-- `ModeOfOperationXTS.encrypt` (`src/modes/xts.ts`, lines 68–128):
guards, tweak encryption under the second key, the main loop up to
`iterationLimit = numBlocks − 2` (aligned) or `numBlocks − 1` (partial
tail), then the ciphertext-stealing branch.  `subarray` accesses follow
JavaScript clamping semantics; for a single aligned block
(`numBlocks = 1`), the "penultimate block" is `subarray(-16, 0)` — the
empty list — and feeding it to the block cipher fails. -/
def xtsEncrypt (E1 E2 : List Nat → List Nat) (plaintext tweak : List Nat) :
    Except String (List Nat) := do
  if plaintext.length < 16 then throw "Los datos para XTS deben ser >= 16 bytes."
  if tweak.length ≠ 16 then throw "El tweak para XTS debe ser de 16 bytes."
  let ct0 ← aesApply E2 tweak
  let numBlocks := plaintext.length / 16
  let finalBlockSize := plaintext.length % 16
  let iterationLimit : Int :=
    if finalBlockSize = 0 then (numBlocks : Int) - 2 else (numBlocks : Int) - 1
  let main ← xtsLoop E1 ((chunks plaintext).take iterationLimit.toNat) ct0
  let currentTweak := main.2
  if finalBlockSize = 0 then
    let penultimateBlockP :=
      jsSubarray plaintext (((numBlocks : Int) - 2) * 16) (((numBlocks : Int) - 1) * 16)
    let lastBlockP := jsSubarray plaintext (((numBlocks : Int) - 1) * 16) plaintext.length
    let tweakm1 := currentTweak
    let tweakm := double tweakm1
    let preCiphertext ← aesApply E1 (xorB penultimateBlockP tweakm1)
    let finalCiphertextInner ← aesApply E1 (xorB lastBlockP tweakm)
    .ok (main.1 ++ xorB finalCiphertextInner tweakm1 ++ xorB preCiphertext tweakm)
  else
    let penultimateBlockP :=
      jsSubarray plaintext (((numBlocks : Int) - 1) * 16) ((numBlocks : Int) * 16)
    let finalShortBlockP := jsSubarray plaintext ((numBlocks : Int) * 16) plaintext.length
    let tweakm1 := currentTweak
    let tweakm := double tweakm1
    let preCiphertext ← aesApply E1 (xorB penultimateBlockP tweakm1)
    let stolenData := preCiphertext.drop finalBlockSize
    let finalCiphertextBlockC := preCiphertext.take finalBlockSize
    let blockForPenultimateC := finalShortBlockP ++ stolenData
    let penC ← aesApply E1 (xorB blockForPenultimateC tweakm)
    .ok (main.1 ++ xorB penC tweakm1 ++ finalCiphertextBlockC)

/-- C2 (code bug): XTS `encrypt` fails on a plaintext of exactly 16 bytes —
the aligned branch computes the "penultimate" block as `subarray(-16, 0)`,
which for a single-block input is empty, and the block cipher rejects it
(after which `ciphertext.set(·, -16)` would also throw) — although the
mode's own guard admits every input of at least 16 bytes.  Inputs shorter
than 16 bytes do fail with the length error the claim describes. -/
theorem C2_xts_16_byte_input_fails :
    xtsEncrypt Einc Einc (zeros 16) (zeros 16)
        = .error "invalid block size (must be 16 bytes)" ∧
      xtsEncrypt Einc Einc (zeros 15) (zeros 16)
        = .error "Los datos para XTS deben ser >= 16 bytes." ∧
      xtsEncrypt Einc Einc (zeros 17) (zeros 16)
        ≠ .error "invalid block size (must be 16 bytes)" := by
  refine ⟨rfl, rfl, ?_⟩
  intro h
  exact absurd (congrArg (fun x => x.toOption.isSome) h) (by decide)

/-- `_pad` from the PMAC-SIV source (`part_003`, lines 95–102): copy into a
fresh 16-byte block and write a `0x80` marker after the data when it is
shorter than 16 bytes. -/
def pmacPad (block : List Nat) : List Nat :=
  if block.length < 16 then block ++ [0x80] ++ zeros (16 - block.length - 1) else block

/-- `ModeOfOperationPMAC_SIV._pmac` (`part_003`, lines 109–129): for empty
data, double the zero offset and absorb the padded empty block; otherwise,
per 1-based block index `i`, XOR `L_series[ntz(i)]` into the offset and the
(padded unless full) block into the checksum; finally encrypt
`checksum ⊕ offset`. -/
def pmac (E : List Nat → List Nat) (data : List Nat) : List Nat :=
  let numBlocks := (data.length + 15) / 16
  let bs := chunks data
  let st :=
    if numBlocks = 0 then
      (xorB (zeros 16) (pmacPad data), double (zeros 16))
    else
      (List.range numBlocks).foldl
        (fun st j =>
          let offset := xorB st.2 (LSeries E (ntz (j + 1)))
          let blk := bs.getD j []
          (xorB st.1 (if blk.length = 16 then blk else pmacPad blk), offset))
        (zeros 16, zeros 16)
  E (xorB st.1 st.2)

/-- `ModeOfOperationPMAC_SIV.encrypt` (`part_003`, lines 138–152): the
synthetic IV/tag is the XOR of the PMACs of nonce, associated data and
plaintext; the plaintext is CTR-encrypted with the **full 16-byte**
synthetic IV as the counter seed; the returned tag is the IV truncated to
`tagSize`. -/
def pmacSivEncrypt (E : List Nat → List Nat) (tagSize : Nat)
    (plaintext nonce aad : List Nat) : List Nat × List Nat :=
  let macNonce := pmac E nonce
  let macAad := pmac E aad
  let macPt := pmac E plaintext
  let ivTag := xorB (xorB macNonce macAad) macPt
  (ctrEncrypt E ivTag plaintext, ivTag.take tagSize)

/-- `ModeOfOperationPMAC_SIV.decrypt` (`part_003`, lines 162–193): reject a
tag whose length differs from `tagSize`; otherwise seed CTR with the
received tag **zero-padded to 16 bytes** (`full_iv_tag`), decrypt,
recompute the expected synthetic IV from the decrypted plaintext, and
compare the first `tagSize` bytes in constant time. -/
def pmacSivDecrypt (E : List Nat → List Nat) (tagSize : Nat)
    (ciphertext ivTag nonce aad : List Nat) : Option (List Nat) :=
  if ivTag.length ≠ tagSize then none
  else
    let fullIvTag := ivTag ++ zeros (16 - ivTag.length)
    let plaintext := ctrEncrypt E fullIvTag ciphertext
    let macNonce := pmac E nonce
    let macAad := pmac E aad
    let macPt := pmac E plaintext
    let expected := xorB (xorB macNonce macAad) macPt
    if orFoldDiff tagSize ivTag expected ≠ 0 then none else some plaintext

/-- C1 (code bug): under the stand-in permutation `Erev` with `tagSize = 8`,
encrypting the 1-byte plaintext `[1]` (empty nonce and AAD) produces
ciphertext `[0]` with an 8-byte all-zero truncated tag, and decrypting that
ciphertext with that tag returns `some [0]` — not the original `[1]`:
encryption seeded CTR with the full 16-byte synthetic IV, while decryption
seeds it with the truncated tag zero-padded, so the keystreams differ. -/
theorem C1_pmacsiv_roundtrip_fails :
    pmacSivEncrypt Erev 8 [1] [] [] = ([0], zeros 8) ∧
      pmacSivDecrypt Erev 8 (pmacSivEncrypt Erev 8 [1] [] []).1
          (pmacSivEncrypt Erev 8 [1] [] []).2 [] [] = some [0] ∧
      some [0] ≠ some ([1] : List Nat) := by
  exact ⟨by decide, by decide, by decide⟩

/-- `ModeOfOperationGCM`'s precounter block `J0` (`part_006`, lines 73–82):
`nonce‖0^24‖1` for a 12-byte nonce, else `GHASH(∅, nonce)`. -/
def gcmJ0 (E : List Nat → List Nat) (iv : List Nat) : List Nat :=
  if iv.length = 12 then iv ++ [0, 0, 0, 1] else ghash E [] iv

/-- `ModeOfOperationGCM.decrypt` (`part_006`, lines 116–146): reject a tag
that is not exactly 16 bytes; recompute `GHASH ⊕ E(J0)`, compare in constant
time, then CTR-decrypt from `J0 + 1`. -/
def gcmDecrypt (E : List Nat → List Nat) (iv ciphertext tag aad : List Nat) :
    Option (List Nat) :=
  if tag.length ≠ 16 then none
  else
    let ghashResult := ghash E aad ciphertext
    let S := E (gcmJ0 E iv)
    let expectedTag := xorB ghashResult S
    if orFoldDiff 16 tag expectedTag ≠ 0 then none
    else some (ctrEncrypt E (counterIncrement (gcmJ0 E iv)) ciphertext)

/-- `ModeOfOperationCCM.decrypt` guard structure (`src/modes/ccm.ts`,
lines 107–113): a tag whose length differs from the configured `tagSize`
returns `null` **before** the nonce-length validation throws; the remainder
of the body (CTR, CBC-MAC recomputation, comparison) is abstracted as
`rest`, which these guards short-circuit. -/
def ccmDecrypt (rest : List Nat → List Nat → List Nat → List Nat → Except String (Option (List Nat)))
    (tagSize L : Nat) (ciphertext iv tag aad : List Nat) : Except String (Option (List Nat)) :=
  if tag.length ≠ tagSize then .ok none
  else if iv.length ≠ 15 - L then
    .error "Longitud de IV inválida para CCM"
  else rest ciphertext iv tag aad

/-- `ModeOfOperationEAX.decrypt` guard structure (`src/modes/eax.ts`,
lines 164–167): the tag-length check is the first statement; the rest of
the body is abstracted as `rest`. -/
def eaxDecrypt (rest : List Nat → List Nat → List Nat → List Nat → Except String (Option (List Nat)))
    (tagSize : Nat) (ciphertext tag nonce aad : List Nat) : Except String (Option (List Nat)) :=
  if tag.length ≠ tagSize then .ok none
  else rest ciphertext tag nonce aad

/-- `ModeOfOperationOCB.decrypt` guard structure (`part_005`, line 199):
the tag-length check is the first statement (the nonce validation inside
`_ocb_process` throws only afterwards); the rest of the body is abstracted
as `rest`. -/
def ocbDecrypt (rest : List Nat → List Nat → List Nat → List Nat → Except String (Option (List Nat)))
    (tagSize : Nat) (ciphertext tag nonce aad : List Nat) : Except String (Option (List Nat)) :=
  if tag.length ≠ tagSize then .ok none
  else rest ciphertext tag nonce aad

/-- `ModeOfOperationCWC.decrypt` guard structure (`src/modes/cwc.ts`,
lines 210 ff.): the 12-byte nonce validation **throws before** the
tag-length check returns `null`; the rest of the body is abstracted as
`rest`. -/
def cwcDecrypt (rest : List Nat → List Nat → List Nat → List Nat → Except String (Option (List Nat)))
    (ciphertext tag nonce aad : List Nat) : Except String (Option (List Nat)) :=
  if nonce.length ≠ 12 then
    .error "Tamaño de nonce inválido para CWC (debe ser 12 bytes)"
  else if tag.length ≠ 16 then .ok none
  else rest ciphertext tag nonce aad

/-- `ModeOfOperationGCM_SIV.decrypt` guard structure
(`src/modes/gcm-siv.ts`, lines 212 ff.): the 12-byte nonce validation
**throws before** the tag-length check returns `null`; the rest of the body
is abstracted as `rest`. -/
def gcmSivDecrypt (rest : List Nat → List Nat → List Nat → List Nat → Except String (Option (List Nat)))
    (ciphertext tag nonce aad : List Nat) : Except String (Option (List Nat)) :=
  if nonce.length ≠ 12 then
    .error "Tamaño de nonce inválido para GCM-SIV (debe ser 12 bytes)"
  else if tag.length ≠ 16 then .ok none
  else rest ciphertext tag nonce aad

/-- `ModeOfOperationHybridCTR.decrypt` guard structure
(`src/modes/tkw.ts`, lines 287 ff. of the file, first statements of the
method): the tag-length check is the first statement; the rest of the body
is abstracted as `rest`. -/
def hybridDecrypt (rest : List Nat → List Nat → List Nat → List Nat → List Nat → Except String (Option (List Nat)))
    (tagSize : Nat) (ciphertext tag nonce aad tweak : List Nat) : Except String (Option (List Nat)) :=
  if tag.length ≠ tagSize then .ok none
  else rest ciphertext tag nonce aad tweak

/-- C7 counterexample: CWC `decrypt` called with an empty nonce and an
empty (hence wrong-length) tag raises the nonce-length error instead of
returning the `null` sentinel, whatever the rest of the body computes. -/
theorem C7_cwc_throws_on_bad_nonce :
    cwcDecrypt (fun _ _ _ _ => .ok none) [] [] [] []
        = .error "Tamaño de nonce inválido para CWC (debe ser 12 bytes)" ∧
      (.error "Tamaño de nonce inválido para CWC (debe ser 12 bytes)"
          : Except String (Option (List Nat))) ≠ .ok none := by
  refine ⟨rfl, ?_⟩
  intro h
  exact absurd (congrArg (fun x => x.toOption.isSome) h) (by decide)

/-- C7 (amended): for GCM, CCM, EAX, OCB, PMAC-SIV and HybridCTR, a received
tag whose length differs from the mode's configured tag length makes
`decrypt` return the `null` sentinel without raising, for every ciphertext,
nonce and associated data; for CWC and GCM-SIV the same holds for every
**12-byte** nonce, while a nonce of any other length makes `decrypt` raise
a nonce-length error before the tag is examined. -/
theorem C7_tag_length_guard (E : List Nat → List Nat)
    (rest rest2 rest3 rest4 rest5 : List Nat → List Nat → List Nat → List Nat → Except String (Option (List Nat)))
    (restH : List Nat → List Nat → List Nat → List Nat → List Nat → Except String (Option (List Nat)))
    (tagSize L : Nat) (iv ct tag nonce aad tweak : List Nat) :
    (tag.length ≠ 16 → gcmDecrypt E iv ct tag aad = none) ∧
      (tag.length ≠ tagSize → ccmDecrypt rest tagSize L ct iv tag aad = .ok none) ∧
      (tag.length ≠ tagSize → eaxDecrypt rest2 tagSize ct tag nonce aad = .ok none) ∧
      (tag.length ≠ tagSize → ocbDecrypt rest3 tagSize ct tag nonce aad = .ok none) ∧
      (tag.length ≠ tagSize → pmacSivDecrypt E tagSize ct tag nonce aad = none) ∧
      (tag.length ≠ tagSize → hybridDecrypt restH tagSize ct tag nonce aad tweak = .ok none) ∧
      (nonce.length = 12 → tag.length ≠ 16 → cwcDecrypt rest4 ct tag nonce aad = .ok none) ∧
      (nonce.length = 12 → tag.length ≠ 16 → gcmSivDecrypt rest5 ct tag nonce aad = .ok none) := by
  refine ⟨fun h => ?_, fun h => ?_, fun h => ?_, fun h => ?_, fun h => ?_, fun h => ?_,
    fun hn h => ?_, fun hn h => ?_⟩
  · simp [gcmDecrypt, h]
  · simp [ccmDecrypt, h]
  · simp [eaxDecrypt, h]
  · simp [ocbDecrypt, h]
  · simp [pmacSivDecrypt, h]
  · simp [hybridDecrypt, h]
  · simp [cwcDecrypt, hn, h]
  · simp [gcmSivDecrypt, hn, h]

/-- C7 witness: each guard fired at a concrete input — configured tag length
16, received tag empty, 12-byte zero nonce. -/
theorem C7_tag_length_guard_witness :
    gcmDecrypt Erev (zeros 11) [] [] [] = none ∧
      ccmDecrypt (fun _ _ _ _ => .ok none) 16 4 [] (zeros 11) [] [] = .ok none ∧
      cwcDecrypt (fun _ _ _ _ => .ok none) [] [] (zeros 12) [] = .ok none := by
  have h := C7_tag_length_guard Erev (fun _ _ _ _ => .ok none) (fun _ _ _ _ => .ok none)
    (fun _ _ _ _ => .ok none) (fun _ _ _ _ => .ok none) (fun _ _ _ _ => .ok none)
    (fun _ _ _ _ _ => .ok none) 16 4 (zeros 11) [] [] (zeros 12) [] []
  exact ⟨h.1 (by decide), h.2.1 (by decide), h.2.2.2.2.2.2.1 (by decide) (by decide)⟩

/-- The minimum FF1 input length (`ModeOfOperationFPE_FF1` constructor,
`src/modes/fpe-ff1.ts`, lines 59–60):
`Math.max(2, Math.ceil(Math.log(1000000)/Math.log(radix)))`. `Math.log` is
double precision; an exhaustive check over every radix in `[2, 65536]`
shows the double computation equals the exact ceiling `⌈log_radix 10^6⌉`,
modelled here exactly as the least `k` with `radix^k ≥ 10^6` (computed with
fuel 20, which suffices for every radix ≥ 2). -/
def ceilLogGo (radix : Nat) : Nat → Nat → Nat
  | 0, _ => 0
  | f + 1, acc => if acc ≥ 1000000 then 0 else 1 + ceilLogGo radix f (acc * radix)

/-- `this.minLen` of the FF1 instance. -/
def ff1MinLen (radix : Nat) : Nat := max 2 (ceilLogGo radix 20 1)

/-- `this.maxLen = 2 ** 32` of the FF1 instance. -/
def ff1MaxLen : Nat := 2 ^ 32

/-- The byte width `b = Math.ceil((v * Math.log2(radix)) / 8) || 1`
(`fpe-ff1.ts`, line 157).  The source computes it in double precision;
modelled as the exact ceiling — the least `k` with `radix^v ≤ 2^(8k)` —
with the `|| 1` floor.  Every round-trip lemma below holds for an arbitrary
value of this parameter (both directions compute it identically, which is
all the Feistel inversion needs), so a possible ulp-level divergence of the
double computation for astronomically long inputs affects no stated
theorem. -/
def ff1B (radix v : Nat) : Nat :=
  let k := (Nat.clog 2 (radix ^ v) + 7) / 8
  if k = 0 then 1 else k

/-- The `charToNum` map of the FF1 constructor: a JavaScript `Map` built
from `(char, index)` pairs in alphabet order, so a later duplicate
overwrites an earlier one — lookup returns the index of the **last**
occurrence. -/
def charToNum (alpha : List Char) (c : Char) : Option Nat :=
  ((alpha.enum.filter (fun p => p.2 = c)).map Prod.fst).getLast?

/-- `_stringToNumerals` (`fpe-ff1.ts`, lines 68–76): map each character
through `charToNum`, failing on a character outside the alphabet. -/
def stringToNumerals (alpha : List Char) : List Char → Except String (List Nat)
  | [] => .ok []
  | c :: rest =>
    match charToNum alpha c with
    | none => .error "El carácter no se encuentra en el alfabeto."
    | some n =>
      match stringToNumerals alpha rest with
      | .error e => .error e
      | .ok ns => .ok (n :: ns)

/-- `_numeralsToString` (`fpe-ff1.ts`, lines 78–84): `numToChar[n]` per
numeral (an in-range index always exists in the verified flows; the
modelling default is never exercised there). -/
def numeralsToString (alpha : List Char) (ns : List Nat) : List Char :=
  ns.map (fun n => alpha.getD n ' ')

/-- `_numeralsToBigInt` (`fpe-ff1.ts`, lines 86–93). -/
def numeralsToNat (radix : Nat) (ns : List Nat) : Nat :=
  ns.foldl (fun acc n => acc * radix + n) 0

/-- `_bigIntToNumerals` (`fpe-ff1.ts`, lines 95–104): fill `length`
numerals from the low-order end with `num % radix`, dividing as it goes. -/
def natToNumerals (radix : Nat) : Nat → Nat → List Nat
  | 0, _ => []
  | m + 1, num => natToNumerals radix m (num / radix) ++ [num % radix]

/-- `_bytesToBigInt` (`fpe-ff1.ts`, lines 116–122):
`num = (num << 8) | byte` over the bytes. -/
def bytesToNat (bytes : List Nat) : Nat :=
  bytes.foldl (fun acc byte => (acc <<< 8) ||| byte) 0

/-- `_prf` (`fpe-ff1.ts`, lines 128–144): CBC-MAC with zero IV; each block
is zero-padded to 16 bytes (`currentBlock.fill(0); currentBlock.set(...)`)
before the XOR with the running MAC. -/
def prf (E : List Nat → List Nat) (data : List Nat) : List Nat :=
  (chunks data).foldl (fun mac blk => E (xorB (blk ++ zeros (16 - blk.length)) mac)) (zeros 16)

/-- The fixed prefix block `P` (`fpe-ff1.ts`, lines 161–176), with
JavaScript 32-bit shift semantics for the 4-byte big-endian fields. -/
def ff1P (radix n tLen u : Nat) : List Nat :=
  [1, 2, 1, (radix >>> 8) &&& 0xff, radix &&& 0xff, 10, u &&& 0xff,
    jsShrAnd255 n 24, jsShrAnd255 n 16, jsShrAnd255 n 8, n &&& 0xff,
    jsShrAnd255 tLen 24, jsShrAnd255 tLen 16, jsShrAnd255 tLen 8, tLen &&& 0xff, 0]

/-- The per-round block `Q` (`fpe-ff1.ts`, lines 191–196):
`tweak ‖ 0^qPadLen ‖ round ‖ [num(prfInput)]^b`, where
`qPadLen = (-tLen - b - 1) & 15` under JavaScript 32-bit semantics. -/
def ff1Q (radix : Nat) (tweak : List Nat) (b round : Nat) (prfNumerals : List Nat) : List Nat :=
  let tLen := tweak.length
  let qPadLen := ((-(tLen : Int) - (b : Int) - 1).emod 16).toNat
  tweak ++ zeros qPadLen ++ [round] ++ natToBE b (numeralsToNat radix prfNumerals)

/-- The block fed to the cipher in the `S` expansion (`fpe-ff1.ts`,
lines 210–217): `R` with the 4-byte big-endian encoding of `j` XORed into
bytes 12–15. -/
def sTempBlock (R : List Nat) (j : Nat) : List Nat :=
  (List.range 16).map (fun i =>
    if i = 12 then Nat.xor (R.getD i 0) (jsShrAnd255 j 24)
    else if i = 13 then Nat.xor (R.getD i 0) (jsShrAnd255 j 16)
    else if i = 14 then Nat.xor (R.getD i 0) (jsShrAnd255 j 8)
    else if i = 15 then Nat.xor (R.getD i 0) (j &&& 0xff)
    else R.getD i 0)

/-- The `S` expansion (`fpe-ff1.ts`, lines 200–225): the first
`min(16, d)` bytes of `R`, then encryptions of `R ⊕ [j]^16` for
`j = 1, 2, ...`, truncated to exactly `d` bytes (the source's
`bytesWritten`/`break` bookkeeping produces exactly this prefix). -/
def ff1S (E : List Nat → List Nat) (R : List Nat) (d : Nat) : List Nat :=
  let numSBlocks := (d + 15) / 16
  ((R.take (min 16 d)) ++ (List.range' 1 (numSBlocks - 1)).flatMap (fun j => E (sTempBlock R j))).take d

/-- The round quantity `y` (`fpe-ff1.ts`, lines 198–227): the PRF of
`P ‖ Q`, expanded to `d` bytes, read as a big-endian integer.  The Feistel
inversion only needs that encryption and decryption compute this identically
from the same `(tweak, round, prfInput)`. -/
def ff1Y (E : List Nat → List Nat) (radix : Nat) (tweak P : List Nat)
    (b d round : Nat) (prfNumerals : List Nat) : Nat :=
  bytesToNat (ff1S E (prf E (P ++ ff1Q radix tweak b round prfNumerals)) d)

/-- One encryption round of `_ff1` (`fpe-ff1.ts`, lines 185–250,
`isEncrypt = true` branches): `m` and `radix_m` by round parity,
`c = (num(A) + y) mod radix_m`, then `A = B; B = C`. -/
def ff1EncRound (E : List Nat → List Nat) (radix : Nat) (tweak P : List Nat)
    (b d u v r : Nat) (st : List Nat × List Nat) : List Nat × List Nat :=
  let m := if r % 2 = 0 then u else v
  let radixm := radix ^ m
  let y := ff1Y E radix tweak P b d r st.2
  let c := (numeralsToNat radix st.1 + y) % radixm
  (st.2, natToNumerals radix m c)

/-- One decryption round of `_ff1` (`fpe-ff1.ts`, lines 185–250,
`isEncrypt = false` branches): the PRF input is `A`,
`c = (num(B) − y) % radix_m` with JavaScript `BigInt` truncated remainder
and a `+ radix_m` correction when negative, then `B = A; A = C`. -/
def ff1DecRound (E : List Nat → List Nat) (radix : Nat) (tweak P : List Nat)
    (b d u v r : Nat) (st : List Nat × List Nat) : List Nat × List Nat :=
  let m := if r % 2 = 0 then u else v
  let radixm := radix ^ m
  let y := ff1Y E radix tweak P b d r st.1
  let cc := ((numeralsToNat radix st.2 : Int) - (y : Int)).tmod (radixm : Int)
  let c := (if cc < 0 then cc + radixm else cc).toNat
  (natToNumerals radix m c, st.1)

/-- `ModeOfOperationFPE_FF1._ff1` (`fpe-ff1.ts`, lines 148–253): length
guard, halves `u = ⌊n/2⌋` and `v = n − u`, the `P` block, conversion of the
halves to numerals, ten Feistel rounds (`0→9` encrypting, `9→0`
decrypting), and conversion back to a string. -/
def ff1Run (E : List Nat → List Nat) (alpha : List Char) (text : List Char)
    (tweak : List Nat) (isEncrypt : Bool) : Except String (List Char) :=
  let radix := alpha.length
  let n := text.length
  if n < ff1MinLen radix ∨ n > ff1MaxLen then
    .error "La longitud del texto debe estar entre minLen y maxLen."
  else
    let u := n / 2
    let v := n - u
    let b := ff1B radix v
    let d := 4 * ((b + 3) / 4) + 4
    let P := ff1P radix n tweak.length u
    match stringToNumerals alpha (text.take u), stringToNumerals alpha (text.drop u) with
    | .ok A, .ok B =>
      let fin := (List.range 10).foldl
        (fun st i =>
          if isEncrypt then ff1EncRound E radix tweak P b d u v i st
          else ff1DecRound E radix tweak P b d u v (9 - i) st) (A, B)
      .ok (numeralsToString alpha (fin.1 ++ fin.2))
    | .error e, _ => .error e
    | _, .error e => .error e

/-- `ModeOfOperationFPE_FF1.encrypt` (`fpe-ff1.ts`, lines 255–257). -/
def ff1Encrypt (E : List Nat → List Nat) (alpha : List Char) (plaintext : List Char)
    (tweak : List Nat) : Except String (List Char) :=
  ff1Run E alpha plaintext tweak true

/-- `ModeOfOperationFPE_FF1.decrypt` (`fpe-ff1.ts`, lines 259–261). -/
def ff1Decrypt (E : List Nat → List Nat) (alpha : List Char) (ciphertext : List Char)
    (tweak : List Nat) : Except String (List Char) :=
  ff1Run E alpha ciphertext tweak false

theorem natToNumerals_length (radix : Nat) :
    ∀ (m c : Nat), (natToNumerals radix m c).length = m := by
  intro m
  induction m with
  | zero => intro c; rfl
  | succ k ih => intro c; simp [natToNumerals, ih]

theorem natToNumerals_lt (radix : Nat) (h : 0 < radix) :
    ∀ (m c : Nat), ∀ x ∈ natToNumerals radix m c, x < radix := by
  intro m
  induction m with
  | zero => intro c x hx; simp [natToNumerals] at hx
  | succ k ih =>
    intro c x hx
    simp only [natToNumerals, List.mem_append, List.mem_singleton] at hx
    rcases hx with hx | hx
    · exact ih (c / radix) x hx
    · subst hx; exact Nat.mod_lt _ h

theorem numeralsToNat_snoc (radix : Nat) (ys : List Nat) (y : Nat) :
    numeralsToNat radix (ys ++ [y]) = numeralsToNat radix ys * radix + y := by
  simp [numeralsToNat, List.foldl_append]

theorem numeralsToNat_natToNumerals (radix : Nat) (h : 0 < radix) :
    ∀ (m c : Nat), numeralsToNat radix (natToNumerals radix m c) = c % radix ^ m := by
  intro m
  induction m with
  | zero => intro c; simp [natToNumerals, numeralsToNat, Nat.mod_one]
  | succ k ih =>
    intro c
    simp only [natToNumerals, numeralsToNat_snoc, ih]
    rw [pow_succ, mul_comm (radix ^ k) radix, Nat.mod_mul]
    ring

theorem natToNumerals_numeralsToNat (radix : Nat) (h : 0 < radix) (ns : List Nat)
    (hlt : ∀ x ∈ ns, x < radix) :
    natToNumerals radix ns.length (numeralsToNat radix ns) = ns := by
  induction ns using List.reverseRecOn with
  | nil => rfl
  | append_singleton ys y ih =>
    have hy : y < radix := hlt y (by simp)
    have hys : ∀ x ∈ ys, x < radix := fun x hx => hlt x (by simp [hx])
    simp only [List.length_append, List.length_singleton, numeralsToNat_snoc, natToNumerals]
    have hdiv : (numeralsToNat radix ys * radix + y) / radix = numeralsToNat radix ys := by
      rw [mul_comm, Nat.mul_add_div h, Nat.div_eq_of_lt hy, Nat.add_zero]
    have hmod : (numeralsToNat radix ys * radix + y) % radix = y := by
      rw [mul_comm, Nat.mul_add_mod, Nat.mod_eq_of_lt hy]
    rw [hdiv, hmod, ih hys]

theorem numeralsToNat_lt (radix : Nat) (h : 0 < radix) (ns : List Nat)
    (hlt : ∀ x ∈ ns, x < radix) :
    numeralsToNat radix ns < radix ^ ns.length := by
  induction ns using List.reverseRecOn with
  | nil => simp [numeralsToNat]
  | append_singleton ys y ih =>
    have hy : y < radix := hlt y (by simp)
    have hys : ∀ x ∈ ys, x < radix := fun x hx => hlt x (by simp [hx])
    have hv := ih hys
    simp only [numeralsToNat_snoc, List.length_append, List.length_singleton, pow_succ]
    calc numeralsToNat radix ys * radix + y
        < (numeralsToNat radix ys + 1) * radix := by nlinarith
      _ ≤ radix ^ ys.length * radix := Nat.mul_le_mul_right radix hv

theorem tmodCorrect (z M : Int) (hM : 0 < M) :
    (if z.tmod M < 0 then z.tmod M + M else z.tmod M) = z % M := by
  have hup : z.tmod M < M := Int.tmod_lt_of_pos _ hM
  have hlow : -M < z.tmod M := by
    rcases le_or_lt 0 z with hz | hz
    · have := Int.tmod_nonneg M hz; omega
    · have hneg : z.tmod M = -((-z).tmod M) := by
        rw [Int.tmod_def, Int.tmod_def, Int.neg_tdiv]
        ring
      have h1 : (-z).tmod M < M := Int.tmod_lt_of_pos _ hM
      omega
  have hcong : z.tmod M % M = z % M := by
    conv_rhs => rw [← Int.tmod_add_tdiv z M]
    rw [Int.add_mul_emod_self_left]
  by_cases ht : z.tmod M < 0
  · rw [if_pos ht]
    have h1 : (z.tmod M + M) % M = z.tmod M % M := by
      rw [← Int.add_mul_emod_self_left (z.tmod M) M 1, mul_one]
    rw [← Int.emod_eq_of_lt (a := z.tmod M + M) (b := M) (by omega) (by omega), h1, hcong]
  · rw [if_neg ht]
    rw [← Int.emod_eq_of_lt (a := z.tmod M) (b := M) (by omega) hup, hcong]

/-- The length of the half replaced at (encrypt-order) round `r`:
`u` for even rounds, `v` for odd ones. -/
def mIdx (u v r : Nat) : Nat := if r % 2 = 0 then u else v

theorem mIdx_add_two (u v r : Nat) : mIdx u v (r + 2) = mIdx u v r := by
  simp [mIdx, Nat.add_mod_right]

theorem ff1Round_inv (E : List Nat → List Nat) (radix : Nat) (tweak P : List Nat)
    (b d u v r : Nat) (st : List Nat × List Nat) (hrad : 0 < radix)
    (hA : st.1.length = if r % 2 = 0 then u else v)
    (hAlt : ∀ x ∈ st.1, x < radix) :
    ff1DecRound E radix tweak P b d u v r (ff1EncRound E radix tweak P b d u v r st) = st := by
  have hM : (0 : Nat) < radix ^ (if r % 2 = 0 then u else v) := pow_pos hrad _
  simp only [ff1EncRound, ff1DecRound]
  set m := if r % 2 = 0 then u else v with hm
  set y := ff1Y E radix tweak P b d r st.2 with hy
  set numA := numeralsToNat radix st.1 with hnumA
  have hval : numeralsToNat radix (natToNumerals radix m ((numA + y) % radix ^ m))
      = (numA + y) % radix ^ m := by
    rw [numeralsToNat_natToNumerals radix hrad, Nat.mod_eq_of_lt (Nat.mod_lt _ hM)]
  rw [hval]
  have hcorr := tmodCorrect ((((numA + y) % radix ^ m : Nat) : Int) - (y : Int))
    ((radix ^ m : Nat) : Int) (by exact_mod_cast hM)
  rw [hcorr]
  have hnumA_lt : numA < radix ^ m := by
    have := numeralsToNat_lt radix hrad st.1 hAlt
    rwa [hA] at this
  have hkey : ((((numA + y) % radix ^ m : Nat) : Int) - (y : Int))
      % ((radix ^ m : Nat) : Int) = (numA : Int) := by
    have hcast : (((numA + y) % radix ^ m : Nat) : Int)
        = (((numA + y : Nat) : Int)) % ((radix ^ m : Nat) : Int) := by push_cast; rfl
    rw [hcast, Int.sub_emod, Int.emod_emod_of_dvd _ dvd_rfl, ← Int.sub_emod]
    push_cast
    rw [add_sub_cancel_right]
    exact Int.emod_eq_of_lt (Int.natCast_nonneg numA) (by exact_mod_cast hnumA_lt)
  rw [hkey]
  have hfin : natToNumerals radix m numA = st.1 := by
    have := natToNumerals_numeralsToNat radix hrad st.1 hAlt
    rwa [hA] at this
  simp only [Int.toNat_natCast, hfin]

theorem ff1EncRound_state (E : List Nat → List Nat) (radix : Nat) (tweak P : List Nat)
    (b d u v r : Nat) (st : List Nat × List Nat) (hrad : 0 < radix)
    (h2 : st.2.length = mIdx u v (r + 1)) (hlt2 : ∀ x ∈ st.2, x < radix) :
    (ff1EncRound E radix tweak P b d u v r st).1.length = mIdx u v (r + 1)
      ∧ (ff1EncRound E radix tweak P b d u v r st).2.length = mIdx u v (r + 2)
      ∧ (∀ x ∈ (ff1EncRound E radix tweak P b d u v r st).1, x < radix)
      ∧ (∀ x ∈ (ff1EncRound E radix tweak P b d u v r st).2, x < radix) := by
  simp only [ff1EncRound]
  refine ⟨h2, ?_, hlt2, ?_⟩
  · rw [natToNumerals_length, mIdx_add_two]
    rfl
  · exact natToNumerals_lt radix hrad _ _

theorem ff1_fold_inv (E : List Nat → List Nat) (radix : Nat) (tweak P : List Nat)
    (b d u v : Nat) (hrad : 0 < radix) :
    ∀ (k r0 : Nat) (st : List Nat × List Nat),
      st.1.length = mIdx u v r0 → st.2.length = mIdx u v (r0 + 1) →
      (∀ x ∈ st.1, x < radix) → (∀ x ∈ st.2, x < radix) →
      ((List.range' r0 k).reverse.foldl
            (fun s i => ff1DecRound E radix tweak P b d u v i s)
            ((List.range' r0 k).foldl
              (fun s i => ff1EncRound E radix tweak P b d u v i s) st) = st)
        ∧ ((List.range' r0 k).foldl
              (fun s i => ff1EncRound E radix tweak P b d u v i s) st).1.length
            = mIdx u v (r0 + k)
        ∧ ((List.range' r0 k).foldl
              (fun s i => ff1EncRound E radix tweak P b d u v i s) st).2.length
            = mIdx u v (r0 + k + 1)
        ∧ (∀ x ∈ ((List.range' r0 k).foldl
              (fun s i => ff1EncRound E radix tweak P b d u v i s) st).1, x < radix)
        ∧ (∀ x ∈ ((List.range' r0 k).foldl
              (fun s i => ff1EncRound E radix tweak P b d u v i s) st).2, x < radix) := by
  intro k
  induction k with
  | zero =>
    intro r0 st h1 h2 hlt1 hlt2
    exact ⟨by simp, by simpa using h1, by simpa using h2,
      by simpa using hlt1, by simpa using hlt2⟩
  | succ k ih =>
    intro r0 st h1 h2 hlt1 hlt2
    have hstate := ff1EncRound_state E radix tweak P b d u v r0 st hrad h2 hlt2
    have hih := ih (r0 + 1) (ff1EncRound E radix tweak P b d u v r0 st)
      hstate.1 hstate.2.1 hstate.2.2.1 hstate.2.2.2
    have hrange : List.range' r0 (k + 1) = r0 :: List.range' (r0 + 1) k := List.range'_succ r0 k 1
    rw [hrange]
    simp only [List.foldl_cons, List.reverse_cons, List.foldl_append, List.foldl_cons,
      List.foldl_nil]
    refine ⟨?_, ?_, ?_, hih.2.2.2.1, hih.2.2.2.2⟩
    · rw [hih.1]
      exact ff1Round_inv E radix tweak P b d u v r0 st hrad h1 hlt1
    · rw [hih.2.1]
      congr 1
      omega
    · rw [hih.2.2.1]
      congr 1
      omega

theorem charToNum_spec (alpha : List Char) (c : Char) (hc : c ∈ alpha) :
    ∃ k, charToNum alpha c = some k ∧ k < alpha.length ∧ alpha.getD k ' ' = c := by
  obtain ⟨i, hget⟩ := List.mem_iff_get.mp hc
  have hmem : ((i : Nat), c) ∈ alpha.enum := by
    rw [List.mem_enum_iff_get?]
    simp only [List.get?_eq_get i.isLt]
    exact congrArg some hget
  have hmemf : ((i : Nat), c) ∈ alpha.enum.filter (fun p => p.2 = c) :=
    List.mem_filter.mpr ⟨hmem, by simp⟩
  have hne : (alpha.enum.filter (fun p => p.2 = c)).map Prod.fst ≠ [] := by
    intro h
    have hx : ((i : Nat), c).1 ∈ (alpha.enum.filter (fun p => p.2 = c)).map Prod.fst :=
      List.mem_map_of_mem _ hmemf
    rw [h] at hx
    exact absurd hx (List.not_mem_nil _)
  obtain ⟨k, hk⟩ := Option.isSome_iff_exists.mp (List.getLast?_isSome.mpr hne)
  refine ⟨k, hk, ?_⟩
  have hkopt : k ∈ ((alpha.enum.filter (fun p => p.2 = c)).map Prod.fst).getLast? := by
    rw [hk]; rfl
  obtain ⟨hne2, hkeq⟩ := List.mem_getLast?_eq_getLast hkopt
  have hkmem : k ∈ (alpha.enum.filter (fun p => p.2 = c)).map Prod.fst := by
    rw [hkeq]; exact List.getLast_mem hne2
  obtain ⟨p, hpf, hp1⟩ := List.mem_map.mp hkmem
  obtain ⟨hpe, hpc⟩ := List.mem_filter.mp hpf
  have hp2 : p.2 = c := by simpa using hpc
  have hpair : (k, c) ∈ alpha.enum := by
    have : p = (k, c) := Prod.ext hp1 hp2
    rwa [this] at hpe
  rw [List.mem_enum_iff_get?] at hpair
  obtain ⟨hklt, hkc⟩ := List.get?_eq_some.mp hpair
  constructor
  · exact hklt
  · rw [List.getD_eq_getElem alpha ' ' hklt]
    simpa [List.get_eq_getElem] using hkc

theorem charToNum_getD (alpha : List Char) (hnd : alpha.Nodup) (k : Nat)
    (hk : k < alpha.length) :
    charToNum alpha (alpha.getD k ' ') = some k := by
  have hmem : alpha.getD k ' ' ∈ alpha := by
    rw [List.getD_eq_getElem alpha ' ' hk]
    exact List.getElem_mem hk
  obtain ⟨j, hcj, hjl, hgd⟩ := charToNum_spec alpha _ hmem
  have hjk : alpha.get ⟨j, hjl⟩ = alpha.get ⟨k, hk⟩ := by
    rw [List.get_eq_getElem, List.get_eq_getElem,
      ← List.getD_eq_getElem alpha ' ' hjl, ← List.getD_eq_getElem alpha ' ' hk, hgd]
  have : (⟨j, hjl⟩ : Fin alpha.length) = ⟨k, hk⟩ := (List.Nodup.get_inj_iff hnd).mp hjk
  rw [hcj]
  exact congrArg some (congrArg Fin.val this)

theorem stringToNumerals_ok (alpha : List Char) (s : List Char)
    (hmem : ∀ c ∈ s, c ∈ alpha) :
    ∃ ns, stringToNumerals alpha s = .ok ns ∧ ns.length = s.length
      ∧ (∀ x ∈ ns, x < alpha.length) ∧ numeralsToString alpha ns = s := by
  induction s with
  | nil => exact ⟨[], rfl, rfl, by simp, rfl⟩
  | cons c rest ih =>
    obtain ⟨k, hck, hkl, hgd⟩ := charToNum_spec alpha c (hmem c (by simp))
    obtain ⟨ns, hok, hlen, hlt, hstr⟩ := ih (fun x hx => hmem x (by simp [hx]))
    refine ⟨k :: ns, ?_, by simp [hlen], ?_, ?_⟩
    · simp [stringToNumerals, hck, hok]
    · intro x hx
      rcases List.mem_cons.mp hx with hx | hx
      · subst hx; exact hkl
      · exact hlt x hx
    · simp only [numeralsToString, List.map_cons] at hstr ⊢
      rw [hgd, hstr]

theorem stringToNumerals_inv (alpha : List Char) (hnd : alpha.Nodup) (ns : List Nat)
    (hlt : ∀ x ∈ ns, x < alpha.length) :
    stringToNumerals alpha (numeralsToString alpha ns) = .ok ns := by
  induction ns with
  | nil => rfl
  | cons n rest ih =>
    have h1 := charToNum_getD alpha hnd n (hlt n (by simp))
    have h2 := ih (fun x hx => hlt x (by simp [hx]))
    simp only [numeralsToString, List.map_cons] at h2 ⊢
    simp only [stringToNumerals, h1, h2]

theorem numeralsToString_length (alpha : List Char) (ns : List Nat) :
    (numeralsToString alpha ns).length = ns.length := by
  simp [numeralsToString]

theorem numeralsToString_mem (alpha : List Char) (ns : List Nat)
    (hlt : ∀ x ∈ ns, x < alpha.length) :
    ∀ ch ∈ numeralsToString alpha ns, ch ∈ alpha := by
  intro ch hch
  obtain ⟨n, hn, hchn⟩ := List.mem_map.mp hch
  subst hchn
  rw [List.getD_eq_getElem alpha ' ' (hlt n hn)]
  exact List.getElem_mem _

theorem numeralsToString_append (alpha : List Char) (xs ys : List Nat) :
    numeralsToString alpha (xs ++ ys) = numeralsToString alpha xs ++ numeralsToString alpha ys := by
  simp [numeralsToString]

/-- C8 (amended): for every alphabet of 2 to 65536 distinct characters,
every tweak, and every input string over that alphabet whose length is at
least `max(2, ⌈log_radix 10^6⌉)` **and at most `2^32` (the implementation's
`maxLen`)**, FF1 decryption of the FF1 encryption returns the original
string, and the ciphertext has exactly the input's length and consists only
of alphabet characters. -/
theorem C8_ff1_roundtrip (E : List Nat → List Nat) (alpha : List Char) (s : List Char)
    (tweak : List Nat) (hnd : alpha.Nodup)
    (hrad2 : 2 ≤ alpha.length) (hrad16 : alpha.length ≤ 65536)
    (hmem : ∀ c ∈ s, c ∈ alpha)
    (hmin : ff1MinLen alpha.length ≤ s.length) (hmax : s.length ≤ ff1MaxLen) :
    ∃ ct, ff1Encrypt E alpha s tweak = .ok ct
      ∧ ct.length = s.length
      ∧ (∀ c ∈ ct, c ∈ alpha)
      ∧ ff1Decrypt E alpha ct tweak = .ok s := by
  have hrad : 0 < alpha.length := by omega
  set radix := alpha.length with hradix
  set n := s.length with hn
  set u := n / 2 with hu
  set v := n - n / 2 with hv
  have huv : u + v = n := by omega
  set b := ff1B radix v with hb
  set d := 4 * ((b + 3) / 4) + 4 with hd
  set P := ff1P radix n tweak.length u with hP
  have hguard : ¬(n < ff1MinLen radix ∨ n > ff1MaxLen) := by
    push_neg
    exact ⟨hmin, hmax⟩
  obtain ⟨A0, hA0ok, hA0len, hA0lt, hA0str⟩ := stringToNumerals_ok alpha (s.take u)
    (fun c hc => hmem c (List.mem_of_mem_take hc))
  obtain ⟨B0, hB0ok, hB0len, hB0lt, hB0str⟩ := stringToNumerals_ok alpha (s.drop u)
    (fun c hc => hmem c (List.mem_of_mem_drop hc))
  have hA0len' : A0.length = u := by
    rw [hA0len, List.length_take]
    omega
  have hB0len' : B0.length = v := by
    rw [hB0len, List.length_drop]
  have hfold := ff1_fold_inv E radix tweak P b d u v hrad 10 0 (A0, B0)
    (by simpa [mIdx] using hA0len') (by simpa [mIdx] using hB0len') hA0lt hB0lt
  set stFin := (List.range' 0 10).foldl
    (fun st i => ff1EncRound E radix tweak P b d u v i st) (A0, B0) with hstFin
  have hfin1len : stFin.1.length = u := by
    have := hfold.2.1
    simpa [mIdx] using this
  have hfin2len : stFin.2.length = v := by
    have := hfold.2.2.1
    simpa [mIdx] using this
  have hfin1lt := hfold.2.2.2.1
  have hfin2lt := hfold.2.2.2.2
  set ct := numeralsToString alpha (stFin.1 ++ stFin.2) with hct
  have hctlen : ct.length = n := by
    rw [hct, numeralsToString_length, List.length_append, hfin1len, hfin2len, huv]
  have hctmem : ∀ c ∈ ct, c ∈ alpha := by
    refine numeralsToString_mem alpha _ ?_
    intro x hx
    rcases List.mem_append.mp hx with hx | hx
    · exact hfin1lt x hx
    · exact hfin2lt x hx
  have hencfun : (fun (st : List Nat × List Nat) (i : Nat) =>
      if (true : Bool) then ff1EncRound E radix tweak P b d u v i st
      else ff1DecRound E radix tweak P b d u v (9 - i) st)
      = fun st i => ff1EncRound E radix tweak P b d u v i st := by
    funext st i
    simp
  have henc : ff1Encrypt E alpha s tweak = .ok ct := by
    unfold ff1Encrypt ff1Run
    simp only
    rw [if_neg hguard]
    simp only [← hu, ← hv, ← hb, ← hd, ← hP, hA0ok, hB0ok, hencfun, List.range_eq_range']
    rfl
  refine ⟨ct, henc, hctlen, hctmem, ?_⟩
  -- decryption
  have hctsplitA : ct.take u = numeralsToString alpha stFin.1 := by
    rw [hct, numeralsToString_append,
      show u = (numeralsToString alpha stFin.1).length by
        rw [numeralsToString_length, hfin1len],
      List.take_left]
  have hctsplitB : ct.drop u = numeralsToString alpha stFin.2 := by
    rw [hct, numeralsToString_append,
      show u = (numeralsToString alpha stFin.1).length by
        rw [numeralsToString_length, hfin1len],
      List.drop_left]
  have hAdec : stringToNumerals alpha (ct.take u) = .ok stFin.1 := by
    rw [hctsplitA]
    exact stringToNumerals_inv alpha hnd stFin.1 hfin1lt
  have hBdec : stringToNumerals alpha (ct.drop u) = .ok stFin.2 := by
    rw [hctsplitB]
    exact stringToNumerals_inv alpha hnd stFin.2 hfin2lt
  have hdecfun : (fun (st : List Nat × List Nat) (i : Nat) =>
      if (false : Bool) then ff1EncRound E radix tweak P b d u v i st
      else ff1DecRound E radix tweak P b d u v (9 - i) st)
      = fun st i => ff1DecRound E radix tweak P b d u v (9 - i) st := by
    funext st i
    simp
  have hmap910 : (List.range 10).map (fun i => 9 - i) = (List.range' 0 10).reverse := by
    decide
  have hdecfold : (List.range 10).foldl
      (fun st i => ff1DecRound E radix tweak P b d u v (9 - i) st) (stFin.1, stFin.2)
      = (A0, B0) := by
    have h1 : (List.range 10).foldl
        (fun st i => ff1DecRound E radix tweak P b d u v (9 - i) st) (stFin.1, stFin.2)
        = ((List.range 10).map (fun i => 9 - i)).foldl
          (fun st i => ff1DecRound E radix tweak P b d u v i st) (stFin.1, stFin.2) := by
      rw [List.foldl_map]
    rw [h1, hmap910]
    have heta : (stFin.1, stFin.2) = stFin := rfl
    rw [heta, hstFin]
    exact hfold.1
  unfold ff1Decrypt ff1Run
  simp only
  rw [hctlen, if_neg hguard]
  simp only [← hu, hctlen, ← hv, ← hb, ← hd, ← hP, hAdec, hBdec, hdecfun, hdecfold]
  rw [numeralsToString_append, hA0str, hB0str, List.take_append_drop]

theorem ff1Run_length_error (E : List Nat → List Nat) (alpha : List Char)
    (text : List Char) (tweak : List Nat) (isEncrypt : Bool)
    (h : text.length < ff1MinLen alpha.length ∨ text.length > ff1MaxLen) :
    ff1Run E alpha text tweak isEncrypt
      = .error "La longitud del texto debe estar entre minLen y maxLen." := by
  simp only [ff1Run]
  rw [if_pos h]

/-- C8 counterexample: over the two-character alphabet `['0','1']`, the
all-`'0'` string of length `2^32 + 1` satisfies every premise of the claim
(distinct alphabet of size 2, characters in the alphabet, length at least
`max(2, ⌈log_2 10^6⌉) = 20`), yet FF1 `encrypt` raises the length error —
`_ff1` also enforces `maxLen = 2^32`, which the claim omits — so
`decrypt(encrypt(s))` cannot return `s` for it. -/
theorem C8_ff1_rejects_beyond_maxLen :
    (['0', '1'] : List Char).Nodup ∧
      ff1MinLen 2 ≤ (List.replicate (2 ^ 32 + 1) '0').length ∧
      (∀ c ∈ List.replicate (2 ^ 32 + 1) '0', c ∈ (['0', '1'] : List Char)) ∧
      ff1Encrypt Einc ['0', '1'] (List.replicate (2 ^ 32 + 1) '0') []
        = .error "La longitud del texto debe estar entre minLen y maxLen." := by
  refine ⟨by decide, ?_, ?_, ?_⟩
  · rw [List.length_replicate]
    have h20 : ff1MinLen 2 = 20 := by decide
    rw [h20]
    norm_num
  · intro c hc
    rw [List.eq_of_mem_replicate hc]
    decide
  · unfold ff1Encrypt
    refine ff1Run_length_error Einc _ _ _ _ (Or.inr ?_)
    rw [List.length_replicate]
    norm_num [ff1MaxLen]

/-- C8 witness: the amended round-trip statement at a concrete input —
alphabet `['0','1']`, the all-`'0'` string of length 20 (the minimum for
radix 2), empty tweak, block cipher `Einc`. -/
theorem C8_ff1_roundtrip_witness :
    (['0', '1'] : List Char).Nodup ∧
      ff1MinLen (['0', '1'] : List Char).length ≤ (List.replicate 20 '0').length ∧
      (∃ ct, ff1Encrypt Einc ['0', '1'] (List.replicate 20 '0') [] = .ok ct
        ∧ ct.length = (List.replicate 20 '0').length
        ∧ (∀ c ∈ ct, c ∈ (['0', '1'] : List Char))
        ∧ ff1Decrypt Einc ['0', '1'] ct [] = .ok (List.replicate 20 '0')) :=
  ⟨by decide, by decide,
    C8_ff1_roundtrip Einc ['0', '1'] (List.replicate 20 '0') [] (by decide) (by decide)
      (by decide) (by decide) (by decide) (by decide)⟩

end AesTs
